import Mathlib

/-!
# Egyptian multiplication and the odd-number sieve

A shallow embedding of `Class_Code/Egyptian_Multiplication/multiply.cpp` and
`Class_Code/Egyptian_Multiplication/sieve.cpp`.

* `int` is a 32-bit two's-complement integer: values are `Int`s and every
  addition and subtraction is reduced by `wrap32`.
* `assert`, a loop that never exits and an access outside the array are the
  three ways a run can fail to produce a value; they are the constructors of
  `Fault`.  Loops and recursions take a `fuel` argument bounding the number of
  iterations (recursive calls); a run that needs more reports `Fault.timeout`.
* The sieve is a template over an integral type `N`; it is embedded over the
  natural numbers (no overflow of `i`, `index_square`, `factor` or of the
  counters of `print_primes`), the flag array being a `List Bool` addressed by
  position.
-/

/-- The ways a run can end without a value. -/
inductive Fault where
  /-- An `assert(...)` failed and the program aborted. -/
  | assertion
  /-- The iteration budget ran out before the loop or recursion finished. -/
  | timeout
  /-- A load or store outside the array. -/
  | outOfBounds
  deriving DecidableEq, Repr

deriving instance DecidableEq for Except

namespace Multiply

/-- Largest value of a 32-bit `int`. -/
def INT_MAX : Int := 2147483647

/-- Smallest value of a 32-bit `int`. -/
def INT_MIN : Int := -2147483648

/-- Reduction of an integer to the 32-bit two's-complement range. -/
def wrap32 (x : Int) : Int := (x + 2147483648) % 4294967296 - 2147483648

/-- The `int` addition `x + y`. -/
def add32 (x y : Int) : Int := wrap32 (x + y)

/-- The `int` subtraction `x - y`. -/
def sub32 (x y : Int) : Int := wrap32 (x - y)

/-- `bool odd(int n) { return n & 1; }` -/
def odd (n : Int) : Bool := Int.land n 1 != 0

/-- `int half(int n) { return n >> 1; }` (arithmetic shift). -/
def half (n : Int) : Int := n >>> (1 : Nat)

/-- `int multiply0(int n, int a)`: the linear recursion. -/
def multiply0 : Nat → Int → Int → Except Fault Int
  | fuel, n, a =>
    if ¬ (n > 0 ∧ a > 0) then .error Fault.assertion
    else if n = 1 then .ok a
    else
      match fuel with
      | 0 => .error Fault.timeout
      | fuel + 1 =>
        match multiply0 fuel (sub32 n 1) a with
        | .error e => .error e
        | .ok r => .ok (add32 r a)

/-- `int multiply1(int n, int a)`: the double-and-add recursion. -/
def multiply1 : Nat → Int → Int → Except Fault Int
  | fuel, n, a =>
    if ¬ (n > 0 ∧ a > 0) then .error Fault.assertion
    else if n = 1 then .ok a
    else
      match fuel with
      | 0 => .error Fault.timeout
      | fuel + 1 =>
        match multiply1 fuel (half n) (add32 a a) with
        | .error e => .error e
        | .ok result => if odd n then .ok (add32 result a) else .ok result

/-- The run of `multiply0` with its additions counted: the outcome and the
number of `int` additions (`... + a`) executed, also when the run aborts. -/
def multiply0_adds : Nat → Int → Int → Except Fault Int × Nat
  | fuel, n, a =>
    if ¬ (n > 0 ∧ a > 0) then (.error Fault.assertion, 0)
    else if n = 1 then (.ok a, 0)
    else
      match fuel with
      | 0 => (.error Fault.timeout, 0)
      | fuel + 1 =>
        match multiply0_adds fuel (sub32 n 1) a with
        | (.error e, c) => (.error e, c)
        | (.ok r, c) => (.ok (add32 r a), c + 1)

/-- The run of `multiply1` with its additions counted: the outcome and the
number of `int` additions (`a + a` and `result + a`) executed, also when the
run aborts. -/
def multiply1_adds : Nat → Int → Int → Except Fault Int × Nat
  | fuel, n, a =>
    if ¬ (n > 0 ∧ a > 0) then (.error Fault.assertion, 0)
    else if n = 1 then (.ok a, 0)
    else
      match fuel with
      | 0 => (.error Fault.timeout, 0)
      | fuel + 1 =>
        match multiply1_adds fuel (half n) (add32 a a) with
        | (.error e, c) => (.error e, c + 1)
        | (.ok result, c) =>
          if odd n then (.ok (add32 result a), c + 2) else (.ok result, c + 1)

/-- `int mult_acc0(int r, int n, int a)`: the accumulating recursion. -/
def mult_acc0 : Nat → Int → Int → Int → Except Fault Int
  | fuel, r, n, a =>
    if ¬ (r > 0 ∧ n > 0 ∧ a > 0) then .error Fault.assertion
    else if n = 1 then .ok (add32 r a)
    else
      match fuel with
      | 0 => .error Fault.timeout
      | fuel + 1 =>
        if odd n then mult_acc0 fuel (add32 r a) (half n) (add32 a a)
        else mult_acc0 fuel r (half n) (add32 a a)

/-- `int mult_acc1(int r, int n, int a)`: the tail-recursive form; `r'` is `r`
after `if (odd(n)) r = r + a;`. -/
def mult_acc1 : Nat → Int → Int → Int → Except Fault Int
  | fuel, r, n, a =>
    if n = 1 then .ok (add32 r a)
    else
      match fuel with
      | 0 => .error Fault.timeout
      | fuel + 1 =>
        let r' := if odd n then add32 r a else r
        mult_acc1 fuel r' (half n) (add32 a a)

/-- `int mult_acc2(int r, int n, int a)`: the branch-reduced form; `r'` is `r`
after the `if (odd(n))` block, which returns it when `n == 1`. -/
def mult_acc2 : Nat → Int → Int → Int → Except Fault Int
  | fuel, r, n, a =>
    let r' := if odd n then add32 r a else r
    if odd n ∧ n = 1 then .ok r'
    else
      match fuel with
      | 0 => .error Fault.timeout
      | fuel + 1 => mult_acc2 fuel r' (half n) (add32 a a)

/-- `int mult_acc3(int r, int n, int a)`: the strictly tail-recursive form,
`n = half(n); a = a + a; return mult_acc3(r, n, a);`. -/
def mult_acc3 : Nat → Int → Int → Int → Except Fault Int
  | fuel, r, n, a =>
    let r' := if odd n then add32 r a else r
    if odd n ∧ n = 1 then .ok r'
    else
      match fuel with
      | 0 => .error Fault.timeout
      | fuel + 1 =>
        let n' := half n
        let a' := add32 a a
        mult_acc3 fuel r' n' a'

/-- `int mult_acc4(int r, int n, int a)`: the `while (true)` loop; one unit of
fuel per iteration. -/
def mult_acc4 : Nat → Int → Int → Int → Except Fault Int
  | 0, _, _, _ => .error Fault.timeout
  | fuel + 1, r, n, a =>
    if odd n then
      if n = 1 then .ok (add32 r a)
      else mult_acc4 fuel (add32 r a) (half n) (add32 a a)
    else mult_acc4 fuel r (half n) (add32 a a)

/-- The normalisation loop of `multiply`:
`while (!odd(n)) { a = a + a; n = half(n); }`, returning the final `(n, a)`. -/
def multiply_norm : Nat → Int → Int → Except Fault (Int × Int)
  | fuel, n, a =>
    if !odd n then
      match fuel with
      | 0 => .error Fault.timeout
      | fuel + 1 => multiply_norm fuel (half n) (add32 a a)
    else .ok (n, a)

/-- `int multiply(int n, int a)`: the canonical iterative multiplication. -/
def multiply (fuel : Nat) (n a : Int) : Except Fault Int :=
  match multiply_norm fuel n a with
  | .error e => .error e
  | .ok (n, a) =>
    if n = 1 then .ok a
    else mult_acc4 fuel a (half (sub32 n 1)) (add32 a a)


/-- The run of `mult_acc4` with the exact (unreduced) sum of every `int`
addition it executes, in order: each `r + a` and each `a + a`. -/
def mult_acc4_sums : Nat → Int → Int → Int → Except Fault Int × List Int
  | 0, _, _, _ => (.error Fault.timeout, [])
  | fuel + 1, r, n, a =>
    if odd n then
      if n = 1 then (.ok (add32 r a), [r + a])
      else
        ((mult_acc4_sums fuel (add32 r a) (half n) (add32 a a)).1,
          (r + a) :: (a + a) :: (mult_acc4_sums fuel (add32 r a) (half n) (add32 a a)).2)
    else
      ((mult_acc4_sums fuel r (half n) (add32 a a)).1,
        (a + a) :: (mult_acc4_sums fuel r (half n) (add32 a a)).2)

/-- The normalisation loop of `multiply` with the exact sum of every `a + a`. -/
def multiply_norm_sums : Nat → Int → Int → Except Fault (Int × Int) × List Int
  | fuel, n, a =>
    if !odd n then
      match fuel with
      | 0 => (.error Fault.timeout, [])
      | fuel + 1 =>
        ((multiply_norm_sums fuel (half n) (add32 a a)).1,
          (a + a) :: (multiply_norm_sums fuel (half n) (add32 a a)).2)
    else (.ok (n, a), [])

/-- The run of `multiply` with the exact sum of every `int` addition it
executes: the doublings of the normalisation loop, the argument `a + a` of
`mult_acc4`, and the additions of `mult_acc4`. -/
def multiply_sums (fuel : Nat) (n a : Int) : Except Fault Int × List Int :=
  match multiply_norm_sums fuel n a with
  | (.error e, l) => (.error e, l)
  | (.ok (n, a), l) =>
    if n = 1 then (.ok a, l)
    else
      ((mult_acc4_sums fuel a (half (sub32 n 1)) (add32 a a)).1,
        l ++ (a + a) :: (mult_acc4_sums fuel a (half (sub32 n 1)) (add32 a a)).2)

end Multiply

namespace Sieve

/-- The store `*p = v` at position `p` of the array. -/
def store (arr : List Bool) (p : Nat) (v : Bool) : Except Fault (List Bool) :=
  if p < arr.length then .ok (arr.set p v) else .error Fault.outOfBounds

/-- The load `first[p]`. -/
def load (arr : List Bool) (p : Nat) : Except Fault Bool :=
  match arr[p]? with
  | some b => .ok b
  | none => .error Fault.outOfBounds

/-- `std::fill(first, first + n, v)`. -/
def fill (arr : List Bool) (n : Nat) (v : Bool) : Except Fault (List Bool) :=
  if n ≤ arr.length then .ok (List.replicate n v ++ arr.drop n)
  else .error Fault.outOfBounds

/-- The loop of `mark_sieve`:
`while (last - first > factor) { first = first + factor; *first = false; }`.
`first` and `last` are positions in the array; the difference is signed. -/
def mark_sieve_loop : Nat → List Bool → Nat → Nat → Nat → Except Fault (List Bool)
  | fuel, arr, first, last, factor =>
    if (last : Int) - (first : Int) > (factor : Int) then
      match fuel with
      | 0 => .error Fault.timeout
      | fuel + 1 =>
        match store arr (first + factor) false with
        | .error e => .error e
        | .ok arr => mark_sieve_loop fuel arr (first + factor) last factor
    else .ok arr

/-- `void mark_sieve(I first, I last, N factor)`: no check of the range; the
first store is unconditional. -/
def mark_sieve (fuel : Nat) (arr : List Bool) (first last factor : Nat) :
    Except Fault (List Bool) :=
  match store arr first false with
  | .error e => .error e
  | .ok arr => mark_sieve_loop fuel arr first last factor

/-- The variables of `sift` at the head of its loop. -/
structure SiftState where
  /-- The flag array. -/
  arr : List Bool
  /-- The loop index `i`. -/
  i : Nat
  /-- The variable `index_square`. -/
  index_square : Nat
  /-- The variable `factor`. -/
  factor : Nat
  deriving DecidableEq, Repr

/-- The loop of `sift`: `while (index_square < n) { ... }`; `k` bounds the
number of iterations and `fuel` is the budget of each `mark_sieve` call. -/
def sift_loop (fuel : Nat) : Nat → Nat → SiftState → Except Fault SiftState
  | k, n, s =>
    if s.index_square < n then
      match k with
      | 0 => .error Fault.timeout
      | k + 1 =>
        match load s.arr s.i with
        | .error e => .error e
        | .ok b =>
          match (if b then mark_sieve fuel s.arr s.index_square n s.factor
                 else .ok s.arr) with
          | .error e => .error e
          | .ok arr =>
            sift_loop fuel k n
              { arr := arr
                i := s.i + 1
                index_square := s.index_square + s.factor + (s.factor + 2)
                factor := s.factor + 2 }
    else .ok s

/-- The run of `sift(first, n)` up to the exit of its loop, with the final
values of `i`, `index_square` and `factor`. -/
def sift_run (fuel : Nat) (arr : List Bool) (n : Nat) : Except Fault SiftState :=
  match fill arr n true with
  | .error e => .error e
  | .ok arr => sift_loop fuel fuel n { arr := arr, i := 0, index_square := 3, factor := 3 }

/-- `void sift(I first, N n)`: the array it leaves. -/
def sift (fuel : Nat) (arr : List Bool) (n : Nat) : Except Fault (List Bool) :=
  match sift_run fuel arr n with
  | .error e => .error e
  | .ok s => .ok s.arr

/-- The flags the sieve is specified to leave in its first `n` slots. -/
def prime_flags (n : Nat) : List Bool :=
  (List.range n).map fun i => decide (Nat.Prime (2 * i + 3))

/-- Slot `j` has been crossed out by one of the first `i` factors: some prime
`2k+3` with `k < i` divides `2j+3` and its square is at most `2j+3`. -/
def Marked (i j : Nat) : Prop :=
  ∃ k, k < i ∧ Nat.Prime (2 * k + 3) ∧ (2 * k + 3) ∣ (2 * j + 3) ∧
    (2 * k + 3) ^ 2 ≤ 2 * j + 3

instance (i j : Nat) : Decidable (Marked i j) := by
  unfold Marked
  infer_instance

/-- The state of `sift` at the head of its loop, for an array that was `arr0`
at the call: `factor` and `index_square` follow `i`, the first `n` slots hold
exactly what the first `i` factors have left, the rest is untouched. -/
def SiftInv (arr0 : List Bool) (n : Nat) (s : SiftState) : Prop :=
  s.factor = 2 * s.i + 3 ∧ s.index_square = 2 * s.i ^ 2 + 6 * s.i + 3 ∧
    s.arr.length = arr0.length ∧
    (∀ j, j < n → s.arr[j]? = some (decide (¬ Marked s.i j))) ∧
    (∀ j, n ≤ j → s.arr[j]? = arr0[j]?)

/-- One pass through the body of the loop of `sift`: the load `first[i]`, the
call of `mark_sieve` when the flag is set, and the three updates. -/
def sift_body (fuel n : Nat) (s : SiftState) : Except Fault SiftState :=
  match load s.arr s.i with
  | .error e => .error e
  | .ok b =>
    match (if b then mark_sieve fuel s.arr s.index_square n s.factor
           else .ok s.arr) with
    | .error e => .error e
    | .ok arr =>
      .ok { arr := arr
            i := s.i + 1
            index_square := s.index_square + s.factor + (s.factor + 2)
            factor := s.factor + 2 }

/-- The states in which the loop of `sift` evaluates its condition
`index_square < n`, in order, for a run of at most `k` iterations started in
`s`; the list ends where the loop exits (or where the run stops). -/
def sift_heads (fuel : Nat) : Nat → Nat → SiftState → List SiftState
  | k, n, s =>
    if s.index_square < n then
      match k with
      | 0 => [s]
      | k + 1 =>
        match sift_body fuel n s with
        | .error _ => [s]
        | .ok s1 => s :: sift_heads fuel k n s1
    else [s]

/-- The states in which `sift(first, n)` evaluates its loop condition. -/
def sift_run_heads (fuel : Nat) (arr : List Bool) (n : Nat) : List SiftState :=
  match fill arr n true with
  | .error _ => []
  | .ok arr => sift_heads fuel fuel n { arr := arr, i := 0, index_square := 3, factor := 3 }

end Sieve

namespace Multiply

/-! ## Arithmetic of the 32-bit model -/

theorem ldiff_one (m : Nat) : Nat.ldiff 1 m = (m + 1) % 2 := by
  apply Nat.eq_of_testBit_eq
  intro k
  rw [Nat.testBit_ldiff]
  cases k with
  | zero =>
    simp [Nat.testBit_zero]
    rcases Nat.mod_two_eq_zero_or_one m with h | h <;>
      simp [h, Nat.succ_mod_two_eq_one_iff, Nat.succ_mod_two_eq_zero_iff]
  | succ k =>
    have h1 : Nat.testBit 1 (k + 1) = false := by simp [Nat.testBit_succ]
    have h2 : Nat.testBit ((m + 1) % 2) (k + 1) = false := by
      rcases Nat.mod_two_eq_zero_or_one (m + 1) with h | h <;> simp [h, Nat.testBit_succ]
    rw [h1, h2]; simp

theorem land_one (n : Int) : Int.land n 1 = n % 2 := by
  cases n with
  | ofNat m =>
    show ((m &&& 1 : Nat) : Int) = _
    rw [Nat.and_one_is_mod]; rfl
  | negSucc m =>
    show ((Nat.ldiff 1 m : Nat) : Int) = _
    rw [ldiff_one, Int.negSucc_eq]
    omega

theorem odd_iff (n : Int) : odd n = true ↔ n % 2 = 1 := by
  unfold odd
  rw [land_one]
  simp only [bne_iff_ne, ne_eq]
  omega

theorem odd_eq_false_iff (n : Int) : odd n = false ↔ n % 2 = 0 := by
  rw [← Bool.not_eq_true, odd_iff]
  omega

theorem half_eq (n : Int) : half n = n / 2 := by
  unfold half
  rw [Int.shiftRight_eq_div_pow]
  norm_num

theorem wrap32_modEq (x : Int) : wrap32 x ≡ x [ZMOD 4294967296] := by
  unfold wrap32 Int.ModEq
  omega

theorem wrap32_eq_of_modEq {x y : Int} (h : x ≡ y [ZMOD 4294967296]) :
    wrap32 x = wrap32 y := by
  unfold wrap32
  unfold Int.ModEq at h
  omega

theorem wrap32_of_range {x : Int} (h1 : INT_MIN ≤ x) (h2 : x ≤ INT_MAX) : wrap32 x = x := by
  unfold wrap32
  unfold INT_MIN at h1
  unfold INT_MAX at h2
  omega

theorem wrap32_range (x : Int) : INT_MIN ≤ wrap32 x ∧ wrap32 x ≤ INT_MAX := by
  unfold wrap32 INT_MIN INT_MAX
  omega

/-- The loop of `mult_acc4` computes `r + n * a` modulo `2^32` for every
positive `n` below `2^fuel`. -/
theorem mult_acc4_wrap (fuel : Nat) : ∀ (r n a : Int), 1 ≤ n → n < 2 ^ fuel →
    mult_acc4 fuel r n a = .ok (wrap32 (r + n * a)) := by
  induction fuel with
  | zero => intro r n a h1 h2; simp at h2; omega
  | succ f ih =>
    intro r n a h1 h2
    have hpow : (2 : Int) ^ (f + 1) = 2 * 2 ^ f := by ring
    rw [hpow] at h2
    rw [mult_acc4]
    by_cases ho : odd n = true
    · have hm := (odd_iff n).1 ho
      by_cases hn1 : n = 1
      · subst hn1; simp [add32, ho]
      · simp only [ho, hn1, if_true, if_false]
        rw [ih _ _ _ (by rw [half_eq]; omega) (by rw [half_eq]; omega)]
        congr 1
        apply wrap32_eq_of_modEq
        have e : r + n * a = (r + a) + (n / 2) * (a + a) := by
          have : n = 2 * (n / 2) + 1 := by omega
          conv_lhs => rw [this]
          ring
        rw [e, half_eq]
        exact ((wrap32_modEq _).add ((wrap32_modEq _).mul_left _))
    · have hm := (odd_eq_false_iff n).1 (by simpa using ho)
      simp only [ho]
      rw [if_neg (by simp)]
      rw [ih _ _ _ (by rw [half_eq]; omega) (by rw [half_eq]; omega)]
      congr 1
      apply wrap32_eq_of_modEq
      have e : r + n * a = r + (n / 2) * (a + a) := by
        have : n = 2 * (n / 2) := by omega
        conv_lhs => rw [this]
        ring
      rw [e, half_eq]
      exact (Int.ModEq.refl r).add ((wrap32_modEq _).mul_left _)

/-- The normalisation loop ends on an odd `n'` with the product unchanged
modulo `2^32`. -/
theorem multiply_norm_spec (fuel : Nat) : ∀ (n a : Int), 1 ≤ n → n < 2 ^ fuel →
    INT_MIN ≤ a → a ≤ INT_MAX →
    ∃ n' a', multiply_norm fuel n a = .ok (n', a') ∧ n' % 2 = 1 ∧ 1 ≤ n' ∧ n' ≤ n ∧
      n' * a' ≡ n * a [ZMOD 4294967296] ∧ INT_MIN ≤ a' ∧ a' ≤ INT_MAX := by
  induction fuel with
  | zero => intro n a h1 h2; simp at h2; omega
  | succ f ih =>
    intro n a h1 h2 ha1 ha2
    have hpow : (2 : Int) ^ (f + 1) = 2 * 2 ^ f := by ring
    rw [hpow] at h2
    rw [multiply_norm]
    by_cases ho : odd n = true
    · have hm := (odd_iff n).1 ho
      refine ⟨n, a, by simp [ho], hm, h1, le_refl _, Int.ModEq.refl _, ha1, ha2⟩
    · have hm := (odd_eq_false_iff n).1 (by simpa using ho)
      have hb : (!odd n) = true := by simpa using ho
      simp only [hb, if_true]
      obtain ⟨n', a', e, p1, p2, p3, p4, p5, p6⟩ :=
        ih (half n) (add32 a a) (by rw [half_eq]; omega) (by rw [half_eq]; omega)
          (wrap32_range _).1 (wrap32_range _).2
      refine ⟨n', a', e, p1, p2, ?_, ?_, p5, p6⟩
      · rw [half_eq] at p3; omega
      · refine p4.trans ?_
        have e2 : n * a = (n / 2) * (a + a) := by
          have : n = 2 * (n / 2) := by omega
          conv_lhs => rw [this]
          ring
        rw [e2, half_eq]
        exact (wrap32_modEq _).mul_left _

/-- With 32-bit wrap-around arithmetic `multiply` returns `n * a` modulo `2^32`
for every positive `int` `n` and every `int` `a`. -/
theorem multiply_wrap_of_lt (fuel : Nat) (n a : Int) (h1 : 1 ≤ n) (h2 : n ≤ INT_MAX)
    (ha1 : INT_MIN ≤ a) (ha2 : a ≤ INT_MAX) (hlt : n < 2 ^ fuel) :
    multiply fuel n a = .ok (wrap32 (n * a)) := by
  obtain ⟨n', a', e, p1, p2, p3, p4, p5, p6⟩ := multiply_norm_spec fuel n a h1 hlt ha1 ha2
  unfold multiply
  rw [e]
  by_cases hn1 : n' = 1
  · subst hn1
    simp only [if_true]
    congr 1
    rw [← wrap32_of_range p5 p6]
    apply wrap32_eq_of_modEq
    simpa using p4
  · simp only [hn1, if_false]
    have hs : sub32 n' 1 = n' - 1 := by
      unfold sub32
      apply wrap32_of_range
      · unfold INT_MIN; omega
      · omega
    rw [hs, mult_acc4_wrap fuel _ _ _ (by rw [half_eq]; omega) (by rw [half_eq]; omega)]
    congr 1
    apply wrap32_eq_of_modEq
    refine Int.ModEq.trans ?_ p4
    have e2 : n' * a' = a' + ((n' - 1) / 2) * (a' + a') := by
      have : n' = 2 * ((n' - 1) / 2) + 1 := by omega
      conv_lhs => rw [this]
      ring
    rw [e2, half_eq]
    exact (Int.ModEq.refl a').add ((wrap32_modEq _).mul_left _)

theorem multiply_wrap (fuel : Nat) (n a : Int) (h1 : 1 ≤ n) (h2 : n ≤ INT_MAX)
    (ha1 : INT_MIN ≤ a) (ha2 : a ≤ INT_MAX) (hf : 31 ≤ fuel) :
    multiply fuel n a = .ok (wrap32 (n * a)) := by
  have hp : (2 : Int) ^ 31 ≤ 2 ^ fuel := pow_le_pow_right₀ (by norm_num) hf
  have hlt : n < 2 ^ fuel := by
    unfold INT_MAX at h2
    have : (2 : Int) ^ 31 = 2147483648 := by norm_num
    omega
  exact multiply_wrap_of_lt fuel n a h1 h2 ha1 ha2 hlt

/-! ## The recursive variants -/

theorem multiply0_adds_fst (fuel : Nat) : ∀ (n a : Int),
    (multiply0_adds fuel n a).1 = multiply0 fuel n a := by
  induction fuel with
  | zero => intro n a; rw [multiply0_adds, multiply0]; split_ifs <;> rfl
  | succ f ih =>
    intro n a
    rw [multiply0_adds, multiply0]
    split_ifs <;> try rfl
    rw [← ih]
    rcases multiply0_adds f (sub32 n 1) a with ⟨_ | _, c⟩ <;> rfl

theorem multiply1_adds_fst (fuel : Nat) : ∀ (n a : Int),
    (multiply1_adds fuel n a).1 = multiply1 fuel n a := by
  induction fuel with
  | zero => intro n a; rw [multiply1_adds, multiply1]; split_ifs <;> rfl
  | succ f ih =>
    intro n a
    rw [multiply1_adds, multiply1]
    split_ifs <;> try rfl
    all_goals
      rw [← ih]
      rcases multiply1_adds f (half n) (add32 a a) with ⟨_ | _, c⟩ <;> rfl

theorem multiply0_adds_one (fuel : Nat) (a : Int) (ha : 1 ≤ a) :
    multiply0_adds fuel 1 a = (.ok a, 0) := by
  have hpos : (1 : Int) > 0 ∧ a > 0 := ⟨by omega, by omega⟩
  cases fuel <;> simp [multiply0_adds, hpos]

theorem multiply0_adds_zero (n a : Int) (hn : 1 < n) (ha : 1 ≤ a) :
    multiply0_adds 0 n a = (.error Fault.timeout, 0) := by
  have hpos : n > 0 ∧ a > 0 := ⟨by omega, by omega⟩
  have hne : n ≠ 1 := by omega
  rw [multiply0_adds]
  simp [hpos, hne]

theorem multiply0_adds_succ (f : Nat) (n a : Int) (hn : 1 < n) (ha : 1 ≤ a) :
    multiply0_adds (f + 1) n a =
      match multiply0_adds f (sub32 n 1) a with
      | (.error e, c) => (.error e, c)
      | (.ok r, c) => (.ok (add32 r a), c + 1) := by
  have hpos : n > 0 ∧ a > 0 := ⟨by omega, by omega⟩
  have hne : n ≠ 1 := by omega
  conv_lhs => rw [multiply0_adds]
  simp [hpos, hne]

/-- The whole behaviour of `multiply0` on a valid pair: `n - 1` additions and
the product modulo `2^32` when the recursion depth `n - 1` is within the
budget, a timeout otherwise; no assertion fires either way. -/
theorem multiply0_adds_spec (fuel : Nat) : ∀ (n a : Int), 1 ≤ n → n ≤ INT_MAX →
    1 ≤ a → a ≤ INT_MAX →
    (n ≤ fuel + 1 →
      multiply0_adds fuel n a = (.ok (wrap32 (n * a)), (n - 1).toNat)) ∧
    (multiply0_adds fuel n a).1 ≠ .error Fault.assertion := by
  induction fuel with
  | zero =>
    intro n a h1 h2 ha1 ha2
    by_cases hn1 : n = 1
    · subst hn1
      have : wrap32 (1 * a) = a := by
        rw [one_mul]; exact wrap32_of_range (by unfold INT_MIN; omega) ha2
      rw [multiply0_adds_one 0 a ha1, this]
      simp
    · rw [multiply0_adds_zero n a (by omega) ha1]
      refine ⟨fun h => by omega, by simp⟩
  | succ f ih =>
    intro n a h1 h2 ha1 ha2
    by_cases hn1 : n = 1
    · subst hn1
      have : wrap32 (1 * a) = a := by
        rw [one_mul]; exact wrap32_of_range (by unfold INT_MIN; omega) ha2
      rw [multiply0_adds_one _ a ha1, this]
      simp
    · rw [multiply0_adds_succ f n a (by omega) ha1]
      have hs : sub32 n 1 = n - 1 := by
        unfold sub32
        exact wrap32_of_range (by unfold INT_MIN; omega) (by omega)
      rw [hs]
      obtain ⟨ih1, ih2⟩ := ih (n - 1) a (by omega) (by omega) ha1 ha2
      constructor
      · intro hfu
        rw [ih1 (by push_cast at hfu ⊢; omega)]
        have hv : add32 (wrap32 ((n - 1) * a)) a = wrap32 (n * a) := by
          unfold add32
          apply wrap32_eq_of_modEq
          have e : n * a = (n - 1) * a + a := by ring
          rw [e]
          exact (wrap32_modEq _).add (Int.ModEq.refl a)
        have hc : (n - 1 - 1).toNat + 1 = (n - 1).toNat := by omega
        simp only [hv, hc]
      · rcases h : multiply0_adds f (n - 1) a with ⟨e | v, c⟩
        · rw [h] at ih2
          simpa using ih2
        · simp

theorem multiply1_adds_one (fuel : Nat) (a : Int) (ha : 1 ≤ a) :
    multiply1_adds fuel 1 a = (.ok a, 0) := by
  have hpos : (1 : Int) > 0 ∧ a > 0 := ⟨by omega, by omega⟩
  cases fuel <;> simp [multiply1_adds, hpos]

theorem multiply1_adds_zero (n a : Int) (hn : 1 < n) (ha : 1 ≤ a) :
    multiply1_adds 0 n a = (.error Fault.timeout, 0) := by
  have hpos : n > 0 ∧ a > 0 := ⟨by omega, by omega⟩
  have hne : n ≠ 1 := by omega
  rw [multiply1_adds]
  simp [hpos, hne]

theorem multiply1_adds_succ (f : Nat) (n a : Int) (hn : 1 < n) (ha : 1 ≤ a) :
    multiply1_adds (f + 1) n a =
      match multiply1_adds f (half n) (add32 a a) with
      | (.error e, c) => (.error e, c + 1)
      | (.ok result, c) =>
        if odd n then (.ok (add32 result a), c + 2) else (.ok result, c + 1) := by
  have hpos : n > 0 ∧ a > 0 := ⟨by omega, by omega⟩
  have hne : n ≠ 1 := by omega
  conv_lhs => rw [multiply1_adds]
  simp [hpos, hne]

theorem digits_two_sum_pos (m : Nat) (hm : 1 ≤ m) : 1 ≤ (Nat.digits 2 m).sum := by
  induction m using Nat.strong_induction_on with
  | _ m ih =>
    rw [Nat.digits_def' (by norm_num) (by omega), List.sum_cons]
    by_cases h : m / 2 = 0
    · have : m % 2 = 1 := by omega
      omega
    · have := ih (m / 2) (by omega) (by omega)
      omega

/-- The whole behaviour of `multiply1` on a valid pair whose doubled operands
all fit in an `int`: `⌊log2 n⌋ + popcount n - 1` additions and the product
modulo `2^32` when the recursion depth is within the budget; no assertion fires
whatever the budget. -/
theorem multiply1_adds_spec (fuel : Nat) : ∀ (m : Nat) (a : Int), 1 ≤ m → 1 ≤ a →
    a * 2 ^ (Nat.log 2 m) ≤ INT_MAX →
    (m < 2 ^ (fuel + 1) →
      multiply1_adds fuel m a =
        (.ok (wrap32 (m * a)), Nat.log 2 m + (Nat.digits 2 m).sum - 1)) ∧
    (multiply1_adds fuel m a).1 ≠ .error Fault.assertion := by
  induction fuel with
  | zero =>
    intro m a h1 ha1 hrep
    by_cases hm1 : m = 1
    · subst hm1
      have ha2 : a ≤ INT_MAX := by simpa using hrep
      have : wrap32 (1 * a) = a := by
        rw [one_mul]; exact wrap32_of_range (by unfold INT_MIN; omega) ha2
      rw [Nat.cast_one, multiply1_adds_one 0 a ha1, this]
      refine ⟨fun _ => by norm_num, by simp⟩
    · rw [multiply1_adds_zero m a (by omega) ha1]
      refine ⟨fun h => by omega, by simp⟩
  | succ f ih =>
    intro m a h1 ha1 hrep
    by_cases hm1 : m = 1
    · subst hm1
      have ha2 : a ≤ INT_MAX := by simpa using hrep
      have : wrap32 (1 * a) = a := by
        rw [one_mul]; exact wrap32_of_range (by unfold INT_MIN; omega) ha2
      rw [Nat.cast_one, multiply1_adds_one _ a ha1, this]
      refine ⟨fun _ => by norm_num, by simp⟩
    · have hlog : Nat.log 2 m = Nat.log 2 (m / 2) + 1 :=
        Nat.log_of_one_lt_of_le (by norm_num) (by omega)
      have hdig : (Nat.digits 2 m).sum = m % 2 + (Nat.digits 2 (m / 2)).sum := by
        rw [Nat.digits_def' (by norm_num) (by omega), List.sum_cons]
      have hS := digits_two_sum_pos (m / 2) (by omega)
      have hpw : (1 : Int) ≤ 2 ^ (Nat.log 2 (m / 2)) := one_le_pow₀ (by norm_num)
      have hrep2 : (a + a) * 2 ^ (Nat.log 2 (m / 2)) ≤ INT_MAX := by
        rw [hlog, pow_succ] at hrep
        linarith
      have h2a : a + a ≤ INT_MAX := by nlinarith
      have haa : add32 a a = a + a := by
        unfold add32
        exact wrap32_of_range (by unfold INT_MIN; omega) h2a
      have hh : half (m : Int) = ((m / 2 : Nat) : Int) := by rw [half_eq]; omega
      rw [multiply1_adds_succ f m a (by omega) ha1, haa, hh]
      obtain ⟨ih1, ih2⟩ := ih (m / 2) (a + a) (by omega) (by omega) hrep2
      constructor
      · intro hfu
        have hpow : 2 ^ (f + 1 + 1) = 2 * 2 ^ (f + 1) := by ring
        rw [ih1 (by omega)]
        by_cases ho : odd (m : Int) = true
        · have hmod := (odd_iff _).1 ho
          have hv : add32 (wrap32 (((m / 2 : Nat) : Int) * (a + a))) a = wrap32 (m * a) := by
            unfold add32
            apply wrap32_eq_of_modEq
            have e : (m : Int) * a = ((m / 2 : Nat) : Int) * (a + a) + a := by
              have : (m : Int) = 2 * ((m / 2 : Nat) : Int) + 1 := by omega
              conv_lhs => rw [this]
              ring
            rw [e]
            exact (wrap32_modEq _).add (Int.ModEq.refl a)
          have hc : Nat.log 2 (m / 2) + (Nat.digits 2 (m / 2)).sum - 1 + 2 =
              Nat.log 2 m + (Nat.digits 2 m).sum - 1 := by omega
          simp only [ho, if_true, hv, hc]
        · have hmod := (odd_eq_false_iff _).1 (by simpa using ho)
          have hv : wrap32 (((m / 2 : Nat) : Int) * (a + a)) = wrap32 (m * a) := by
            congr 1
            have : (m : Int) = 2 * ((m / 2 : Nat) : Int) := by omega
            conv_rhs => rw [this]
            ring
          have hc : Nat.log 2 (m / 2) + (Nat.digits 2 (m / 2)).sum - 1 + 1 =
              Nat.log 2 m + (Nat.digits 2 m).sum - 1 := by omega
          simp only [ho, hv, hc]
          simp
      · rcases h : multiply1_adds f ((m / 2 : Nat) : Int) (a + a) with ⟨e | v, c⟩
        · rw [h] at ih2
          simpa using ih2
        · simp only
          split_ifs <;> simp

theorem log_add_digits_le (m : Nat) (hm : 1 ≤ m) :
    Nat.log 2 m + (Nat.digits 2 m).sum ≤ m := by
  induction m using Nat.strong_induction_on with
  | _ m ih =>
    by_cases hm1 : m = 1
    · subst hm1; norm_num
    · have hlog : Nat.log 2 m = Nat.log 2 (m / 2) + 1 :=
        Nat.log_of_one_lt_of_le (by norm_num) (by omega)
      have hdig : (Nat.digits 2 m).sum = m % 2 + (Nat.digits 2 (m / 2)).sum := by
        rw [Nat.digits_def' (by norm_num) (by omega), List.sum_cons]
      have := ih (m / 2) (by omega) (by omega)
      omega

/-- For `m ≥ 4` the double-and-add count is below the linear count `m - 1`. -/
theorem log_add_digits_lt (m : Nat) (hm : 4 ≤ m) :
    Nat.log 2 m + (Nat.digits 2 m).sum - 1 < m - 1 := by
  have hlog : Nat.log 2 m = Nat.log 2 (m / 2) + 1 :=
    Nat.log_of_one_lt_of_le (by norm_num) (by omega)
  have hdig : (Nat.digits 2 m).sum = m % 2 + (Nat.digits 2 (m / 2)).sum := by
    rw [Nat.digits_def' (by norm_num) (by omega), List.sum_cons]
  have := log_add_digits_le (m / 2) (by omega)
  omega

theorem pow_log_mul_le (m : Nat) (a : Int) (hm : 1 ≤ m) (ha : 1 ≤ a) :
    a * 2 ^ (Nat.log 2 m) ≤ (m : Int) * a := by
  have h : 2 ^ (Nat.log 2 m) ≤ m := Nat.pow_log_le_self 2 (by omega)
  have h2 : ((2 ^ (Nat.log 2 m) : Nat) : Int) ≤ (m : Int) := by exact_mod_cast h
  push_cast at h2
  nlinarith

theorem lt_two_pow_of_rep (m : Nat) (a : Int) (ha : 1 ≤ a)
    (hrep : a * 2 ^ (Nat.log 2 m) ≤ INT_MAX) : m < 2 ^ 31 := by
  have hpw : (1 : Int) ≤ 2 ^ (Nat.log 2 m) := one_le_pow₀ (by norm_num)
  have h1 : (2 : Int) ^ (Nat.log 2 m) ≤ INT_MAX := by nlinarith
  have h2 : (2 : Int) ^ (Nat.log 2 m) < 2 ^ 31 := by
    unfold INT_MAX at h1
    have : (2 : Int) ^ 31 = 2147483648 := by norm_num
    omega
  have h3 : Nat.log 2 m < 31 := (pow_lt_pow_iff_right₀ (by norm_num)).1 h2
  calc m < 2 ^ (Nat.log 2 m + 1) := Nat.lt_pow_succ_log_self (by norm_num) m
    _ ≤ 2 ^ 31 := Nat.pow_le_pow_right (by norm_num) (by omega)

theorem multiply_norm_zero (fuel : Nat) : ∀ a : Int,
    multiply_norm fuel 0 a = .error Fault.timeout := by
  have ho : odd 0 = false := by decide
  have hh : half 0 = 0 := by decide
  induction fuel with
  | zero => intro a; rw [multiply_norm]; simp [ho]
  | succ f ih => intro a; rw [multiply_norm]; simp [ho, hh, ih]

/-- Both recursive variants return `n * a` on a valid pair with a
representable product, given a recursion budget of `n`. -/
theorem multiply01_value (fuel : Nat) (n a : Int) (hn : 1 ≤ n) (ha : 1 ≤ a)
    (hrep : n * a ≤ INT_MAX) (hf : n ≤ fuel) :
    multiply0 fuel n a = .ok (n * a) ∧ multiply1 fuel n a = .ok (n * a) := by
  have hna : n ≤ n * a := by nlinarith
  have han : a ≤ n * a := by nlinarith
  have hmin : INT_MIN ≤ 1 := by unfold INT_MIN; norm_num
  have hw : wrap32 (n * a) = n * a := wrap32_of_range (by linarith) hrep
  have hfl : (fuel : Int) < 2 ^ fuel := by exact_mod_cast Nat.lt_two_pow fuel
  refine ⟨?_, ?_⟩
  · rw [← multiply0_adds_fst,
      (multiply0_adds_spec fuel n a hn (by linarith) ha (by linarith)).1 (by omega), hw]
  · lift n to ℕ using (by omega)
    have hlt : n < 2 ^ (fuel + 1) := by
      have : (n : Int) < 2 ^ fuel := by omega
      have h3 : n < 2 ^ fuel := by exact_mod_cast this
      rw [pow_succ]; omega
    rw [← multiply1_adds_fst,
      (multiply1_adds_spec fuel n a (by omega) ha
        (le_trans (pow_log_mul_le n a (by omega) ha) hrep)).1 hlt, hw]

/-! ## The multiplication contract -/

/-- C1: for every `n ≥ 1` and `a ≥ 1` whose product fits in a 32-bit `int`, the
iterative `multiply(n, a)` returns exactly `n * a` (31 loop iterations always
suffice). -/
theorem multiply_correct (fuel : Nat) (n a : Int) (hn : 1 ≤ n) (ha : 1 ≤ a)
    (hrep : n * a ≤ INT_MAX) (hf : 31 ≤ fuel) :
    multiply fuel n a = .ok (n * a) := by
  have hna : n ≤ n * a := by nlinarith
  have han : a ≤ n * a := by nlinarith
  have hmin : INT_MIN ≤ 1 := by unfold INT_MIN; norm_num
  rw [multiply_wrap fuel n a hn (le_trans hna hrep) (by linarith) (le_trans han hrep) hf,
    wrap32_of_range (by linarith) hrep]

/-- C1, the driver's scenario: `multiply(5000, 8392)` is `41960000`. -/
theorem multiply_correct_witness : multiply 31 5000 8392 = .ok 41960000 :=
  multiply_correct 31 5000 8392 (by decide) (by decide) (by decide) (by decide)

/-- C3: for every `n ≥ 1` and `a ≥ 1` with `n * a` representable in a 32-bit
`int`, the linear `multiply0`, the double-and-add `multiply1` and the iterative
`multiply` all return `n * a` (a recursion budget of `n` is enough for all
three). -/
theorem multiply_variants_agree (fuel : Nat) (n a : Int) (hn : 1 ≤ n) (ha : 1 ≤ a)
    (hrep : n * a ≤ INT_MAX) (hf : n ≤ fuel) :
    multiply0 fuel n a = .ok (n * a) ∧ multiply1 fuel n a = .ok (n * a) ∧
      multiply fuel n a = .ok (n * a) := by
  have hna : n ≤ n * a := by nlinarith
  have han : a ≤ n * a := by nlinarith
  have hmin : INT_MIN ≤ 1 := by unfold INT_MIN; norm_num
  have hw : wrap32 (n * a) = n * a := wrap32_of_range (by linarith) hrep
  have hfl : (fuel : Int) < 2 ^ fuel := by exact_mod_cast Nat.lt_two_pow fuel
  have h01 := multiply01_value fuel n a hn ha hrep hf
  refine ⟨h01.1, h01.2, ?_⟩
  rw [multiply_wrap_of_lt fuel n a hn (by linarith) (by linarith) (by linarith) (by omega), hw]

/-- C3, the driver's case: the three variants agree on `5000 * 8392`. -/
theorem multiply_variants_agree_witness :
    multiply0 5000 5000 8392 = .ok 41960000 ∧ multiply1 5000 5000 8392 = .ok 41960000 ∧
      multiply 5000 5000 8392 = .ok 41960000 :=
  multiply_variants_agree 5000 5000 8392 (by decide) (by decide) (by decide) (by decide)

/-- C5: the canonical `multiply` carries no precondition check.  On `n = 0` the
normalisation loop never exits, whatever the iteration budget, and on `a < 1`
with `n = 1` it returns a value instead of failing. -/
theorem multiply_no_precondition_check :
    (∀ fuel : Nat, multiply fuel 0 5 = .error Fault.timeout) ∧
      multiply 31 1 (-5) = .ok (-5) ∧ multiply 31 1 0 = .ok 0 := by
  refine ⟨fun fuel => ?_, by decide, by decide⟩
  unfold multiply
  rw [multiply_norm_zero]

/-- C6: `multiply0` and `multiply1` abort on their assertion whenever `n < 1` or
`a < 1`; for `n ≥ 1`, `a ≥ 1` with `n * a` representable no assertion fires,
neither at top level nor in a nested call (whatever the recursion budget, the
outcome is never an assertion failure, and with budget `n` both return
`n * a`), the recursive arguments `n - 1`, `half(n)` and `a + a` being strictly
positive. -/
theorem multiply01_assertions (fuel : Nat) (n a : Int) :
    ((n < 1 ∨ a < 1) →
      multiply0 fuel n a = .error Fault.assertion ∧
      multiply1 fuel n a = .error Fault.assertion) ∧
    (1 ≤ n → 1 ≤ a → n * a ≤ INT_MAX →
      multiply0 fuel n a ≠ .error Fault.assertion ∧
      multiply1 fuel n a ≠ .error Fault.assertion ∧
      (n ≤ fuel → multiply0 fuel n a = .ok (n * a) ∧ multiply1 fuel n a = .ok (n * a)) ∧
      (1 < n → 0 < sub32 n 1 ∧ 0 < half n ∧ 0 < add32 a a)) := by
  constructor
  · intro h
    have hneg : ¬ (n > 0 ∧ a > 0) := by omega
    constructor
    · cases fuel <;> simp [multiply0, hneg]
    · cases fuel <;> simp [multiply1, hneg]
  · intro hn ha hrep
    have hna : n ≤ n * a := by nlinarith
    have han : a ≤ n * a := by nlinarith
    refine ⟨?_, ?_, ?_, ?_⟩
    · rw [← multiply0_adds_fst]
      exact (multiply0_adds_spec fuel n a hn (by linarith) ha (by linarith)).2
    · rw [← multiply1_adds_fst]
      lift n to ℕ using (by omega)
      exact (multiply1_adds_spec fuel n a (by omega) ha
        (le_trans (pow_log_mul_le n a (by omega) ha) hrep)).2
    · intro hf
      exact multiply01_value fuel n a hn ha hrep hf
    · intro h1
      have h2a : a + a ≤ INT_MAX := by nlinarith
      have hs : sub32 n 1 = n - 1 := by
        unfold sub32
        exact wrap32_of_range (by unfold INT_MIN; omega) (by linarith)
      have haa : add32 a a = a + a := by
        unfold add32
        exact wrap32_of_range (by unfold INT_MIN; omega) h2a
      rw [hs, haa, half_eq]
      omega

/-- C6 at `n = 6`, `a = 7` (valid) and at `n = 0`, `a = 7` (rejected). -/
theorem multiply01_assertions_witness :
    (multiply0 6 6 7 = .ok (6 * 7) ∧ multiply1 6 6 7 = .ok (6 * 7)) ∧
      (multiply0 6 0 7 = .error Fault.assertion ∧
        multiply1 6 0 7 = .error Fault.assertion) :=
  ⟨((multiply01_assertions 6 6 7).2 (by decide) (by decide) (by decide)).2.2.1 (by decide),
    (multiply01_assertions 6 0 7).1 (Or.inl (by decide))⟩

/-- C8 as stated fails: `multiply1(4, 2^30)` executes the single addition
`a + a`, which overflows to `-2^31`, and the nested call aborts on its
assertion; the claimed count `⌊log2 4⌋ + popcount 4 - 1` is `2`. -/
theorem multiply1_additions_overflow :
    (1 : Int) ≤ 4 ∧ (1 : Int) ≤ 1073741824 ∧
      multiply1_adds 31 4 1073741824 = (.error Fault.assertion, 1) ∧
      Nat.log 2 (Int.toNat 4) + (Nat.digits 2 (Int.toNat 4)).sum - 1 = 2 ∧
      (multiply1_adds 31 4 1073741824).2 ≠
        Nat.log 2 (Int.toNat 4) + (Nat.digits 2 (Int.toNat 4)).sum - 1 := by
  have ht : Int.toNat 4 = 4 := by decide
  have hl : Nat.log 2 4 = 2 := by rw [Nat.log_eq_iff] <;> norm_num
  have hd : (Nat.digits 2 4).sum = 1 := by norm_num
  have hr : multiply1_adds 31 4 1073741824 = (.error Fault.assertion, 1) := by decide
  rw [ht, hl, hd, hr]
  decide

/-- C8, amended: for every `n ≥ 1` and `a ≥ 1` whose doubled operands all fit in
a 32-bit `int` (`a * 2^⌊log2 n⌋ ≤ INT_MAX`, in particular whenever `n * a`
fits), `multiply1(n, a)` returns and executes exactly
`⌊log2 n⌋ + popcount n - 1` additions, a number that does not depend on `a`. -/
theorem multiply1_additions (fuel : Nat) (n a : Int) (hn : 1 ≤ n) (ha : 1 ≤ a)
    (hrep : a * 2 ^ (Nat.log 2 n.toNat) ≤ INT_MAX) (hf : 31 ≤ fuel) :
    multiply1_adds fuel n a =
      (.ok (wrap32 (n * a)), Nat.log 2 n.toNat + (Nat.digits 2 n.toNat).sum - 1) := by
  lift n to ℕ using (by omega)
  rw [Int.toNat_ofNat] at hrep ⊢
  have h31 := lt_two_pow_of_rep n a ha hrep
  have hlt : n < 2 ^ (fuel + 1) :=
    lt_of_lt_of_le h31 (Nat.pow_le_pow_right (by norm_num) (by omega))
  exact (multiply1_adds_spec fuel n a (by omega) ha hrep).1 hlt

/-- C8, amended, at `n = 6`, `a = 7`: three additions. -/
theorem multiply1_additions_witness : multiply1_adds 31 6 7 = (.ok 42, 3) := by
  have hlog : Nat.log 2 (Int.toNat 6) = 2 := by
    rw [Nat.log_eq_iff] <;> norm_num
  have h := multiply1_additions 31 6 7 (by decide) (by decide)
    (by rw [hlog]; decide) (by decide)
  rw [hlog] at h
  rw [h]
  refine Prod.ext (by decide) ?_
  have ht : Int.toNat 6 = 6 := by decide
  show 2 + (Nat.digits 2 (Int.toNat 6)).sum - 1 = 3
  rw [ht]
  norm_num

/-- C9 as stated fails at `n = 3`: `multiply1(3, 1)` and `multiply0(3, 1)` both
execute two additions. -/
theorem multiply1_not_fewer_at_three :
    (multiply1_adds 3 3 1).2 = 2 ∧ (multiply0_adds 3 3 1).2 = 2 ∧
      ¬ ((multiply1_adds 3 3 1).2 < (multiply0_adds 3 3 1).2) := by
  decide

/-- C9, amended: for every `n ≥ 4` (and `a ≥ 1` with `n * a` representable)
`multiply0(n, a)` executes `n - 1` additions, `multiply1(n, a)` executes
`⌊log2 n⌋ + popcount n - 1`, and the latter is strictly smaller. -/
theorem multiply1_fewer_additions (fuel : Nat) (n a : Int) (hn : 4 ≤ n) (ha : 1 ≤ a)
    (hrep : n * a ≤ INT_MAX) (hf : n ≤ fuel) :
    (multiply0_adds fuel n a).2 = (n - 1).toNat ∧
      (multiply1_adds fuel n a).2 = Nat.log 2 n.toNat + (Nat.digits 2 n.toNat).sum - 1 ∧
      (multiply1_adds fuel n a).2 < (multiply0_adds fuel n a).2 := by
  have hna : n ≤ n * a := by nlinarith
  have han : a ≤ n * a := by nlinarith
  have h0 := (multiply0_adds_spec fuel n a (by omega) (by linarith) ha (by linarith)).1
    (by omega)
  lift n to ℕ using (by omega)
  have hfl : fuel < 2 ^ fuel := Nat.lt_two_pow fuel
  have hnf : n ≤ fuel := by exact_mod_cast hf
  have hlt : n < 2 ^ (fuel + 1) := by rw [pow_succ]; omega
  have h1 := (multiply1_adds_spec fuel n a (by omega) ha
    (le_trans (pow_log_mul_le n a (by omega) ha) hrep)).1 hlt
  have h4 : 4 ≤ n := by exact_mod_cast hn
  have hlt2 := log_add_digits_lt n h4
  rw [h0, h1, Int.toNat_ofNat]
  refine ⟨rfl, rfl, ?_⟩
  show Nat.log 2 n + (Nat.digits 2 n).sum - 1 < ((n : Int) - 1).toNat
  omega

/-- C9, amended, at `n = 4`, `a = 1`: two additions against three. -/
theorem multiply1_fewer_additions_witness :
    (multiply1_adds 4 4 1).2 < (multiply0_adds 4 4 1).2 :=
  (multiply1_fewer_additions 4 4 1 (by decide) (by decide) (by decide) (by decide)).2.2

/-! ## Modular lemmas for the accumulator variants -/

theorem acc_step_modEq (r n a : Int) :
    (if odd n then add32 r a else r) + half n * add32 a a ≡ r + n * a [ZMOD 4294967296] := by
  rw [half_eq]
  by_cases ho : odd n = true
  · have hm := (odd_iff n).1 ho
    have e : r + n * a = (r + a) + (n / 2) * (a + a) := by
      have : n = 2 * (n / 2) + 1 := by omega
      conv_lhs => rw [this]
      ring
    rw [if_pos ho, e]
    exact (wrap32_modEq _).add ((wrap32_modEq _).mul_left _)
  · have hm := (odd_eq_false_iff n).1 (by simpa using ho)
    have e : r + n * a = r + (n / 2) * (a + a) := by
      have : n = 2 * (n / 2) := by omega
      conv_lhs => rw [this]
      ring
    rw [if_neg ho, e]
    exact (Int.ModEq.refl r).add ((wrap32_modEq _).mul_left _)

theorem odd_one : odd 1 = true := by decide

theorem mult_acc1_wrap (fuel : Nat) : ∀ (r n a : Int), 1 ≤ n → n < 2 ^ (fuel + 1) →
    mult_acc1 fuel r n a = .ok (wrap32 (r + n * a)) := by
  induction fuel with
  | zero =>
    intro r n a h1 h2
    have hn : n = 1 := by norm_num at h2; omega
    subst hn
    rw [mult_acc1]
    simp [add32]
  | succ f ih =>
    intro r n a h1 h2
    have hpow : (2 : Int) ^ (f + 1 + 1) = 2 * 2 ^ (f + 1) := by ring
    rw [hpow] at h2
    rw [mult_acc1]
    by_cases hn : n = 1
    · subst hn; simp [add32]
    · simp only [hn, if_false]
      rw [ih _ _ _ (by rw [half_eq]; omega) (by rw [half_eq]; omega)]
      congr 1
      exact wrap32_eq_of_modEq (acc_step_modEq r n a)

theorem mult_acc2_wrap (fuel : Nat) : ∀ (r n a : Int), 1 ≤ n → n < 2 ^ (fuel + 1) →
    mult_acc2 fuel r n a = .ok (wrap32 (r + n * a)) := by
  induction fuel with
  | zero =>
    intro r n a h1 h2
    have hn : n = 1 := by norm_num at h2; omega
    subst hn
    rw [mult_acc2]
    simp [add32, odd_one]
  | succ f ih =>
    intro r n a h1 h2
    have hpow : (2 : Int) ^ (f + 1 + 1) = 2 * 2 ^ (f + 1) := by ring
    rw [hpow] at h2
    rw [mult_acc2]
    by_cases hn : n = 1
    · subst hn; simp [add32, odd_one]
    · simp only [hn, and_false, if_false]
      rw [ih _ _ _ (by rw [half_eq]; omega) (by rw [half_eq]; omega)]
      congr 1
      exact wrap32_eq_of_modEq (acc_step_modEq r n a)

theorem mult_acc3_wrap (fuel : Nat) : ∀ (r n a : Int), 1 ≤ n → n < 2 ^ (fuel + 1) →
    mult_acc3 fuel r n a = .ok (wrap32 (r + n * a)) := by
  induction fuel with
  | zero =>
    intro r n a h1 h2
    have hn : n = 1 := by norm_num at h2; omega
    subst hn
    rw [mult_acc3]
    simp [add32, odd_one]
  | succ f ih =>
    intro r n a h1 h2
    have hpow : (2 : Int) ^ (f + 1 + 1) = 2 * 2 ^ (f + 1) := by ring
    rw [hpow] at h2
    rw [mult_acc3]
    by_cases hn : n = 1
    · subst hn; simp [add32, odd_one]
    · simp only [hn, and_false, if_false]
      rw [ih _ _ _ (by rw [half_eq]; omega) (by rw [half_eq]; omega)]
      congr 1
      exact wrap32_eq_of_modEq (acc_step_modEq r n a)

/-- On positive arguments with `r + n * a` representable, `mult_acc0` passes
every assertion and returns `r + n * a`. -/
theorem mult_acc0_spec (fuel : Nat) : ∀ (r n a : Int), 1 ≤ r → 1 ≤ n → 1 ≤ a →
    r + n * a ≤ INT_MAX → n < 2 ^ (fuel + 1) →
    mult_acc0 fuel r n a = .ok (r + n * a) := by
  have hmin : INT_MIN ≤ 1 := by unfold INT_MIN; norm_num
  induction fuel with
  | zero =>
    intro r n a hr h1 ha hrep h2
    have hn : n = 1 := by norm_num at h2; omega
    subst hn
    have hpos : r > 0 ∧ (1 : Int) > 0 ∧ a > 0 := ⟨by omega, by omega, by omega⟩
    have hv : add32 r a = r + 1 * a := by
      unfold add32
      rw [one_mul]
      exact wrap32_of_range (by linarith) (by linarith)
    rw [mult_acc0]
    simp [hpos, hv]
  | succ f ih =>
    intro r n a hr h1 ha hrep h2
    have hpow : (2 : Int) ^ (f + 1 + 1) = 2 * 2 ^ (f + 1) := by ring
    rw [hpow] at h2
    have hpos : r > 0 ∧ n > 0 ∧ a > 0 := ⟨by omega, by omega, by omega⟩
    rw [mult_acc0]
    by_cases hn : n = 1
    · subst hn
      have hv : add32 r a = r + 1 * a := by
        unfold add32
        rw [one_mul]
        exact wrap32_of_range (by linarith) (by linarith)
      simp [hpos, hv]
    · simp only [hpos, and_self, not_true_eq_false, hn, if_false]
      have h2n : 2 ≤ n := by omega
      have hna : a + a ≤ n * a := by
        have := mul_le_mul_of_nonneg_right h2n (show (0 : Int) ≤ a by omega)
        linarith
      have hra : r + a ≤ r + n * a := by nlinarith
      have haa : add32 a a = a + a := by
        unfold add32
        exact wrap32_of_range (by linarith) (by linarith)
      have hr2 : add32 r a = r + a := by
        unfold add32
        exact wrap32_of_range (by linarith) (by linarith)
      rw [haa, hr2, half_eq]
      by_cases ho : odd n = true
      · have hm := (odd_iff n).1 ho
        have e : r + n * a = (r + a) + (n / 2) * (a + a) := by
          have : n = 2 * (n / 2) + 1 := by omega
          conv_lhs => rw [this]
          ring
        rw [if_pos ho, ih _ _ _ (by omega) (by omega) (by omega) (by rw [← e]; exact hrep)
          (by omega), e]
      · have hm := (odd_eq_false_iff n).1 (by simpa using ho)
        have e : r + n * a = r + (n / 2) * (a + a) := by
          have : n = 2 * (n / 2) := by omega
          conv_lhs => rw [this]
          ring
        rw [if_neg ho, ih _ _ _ hr (by omega) (by omega) (by rw [← e]; exact hrep)
          (by omega), e]

theorem mult_acc0_nonpos (fuel : Nat) (r n a : Int) (h : r ≤ 0 ∨ n ≤ 0 ∨ a ≤ 0) :
    mult_acc0 fuel r n a = .error Fault.assertion := by
  have hneg : ¬ (r > 0 ∧ n > 0 ∧ a > 0) := by omega
  cases fuel <;> simp [mult_acc0, hneg]

theorem lt_two_pow_of_le_max (fuel : Nat) (n : Int) (h2 : n ≤ INT_MAX) (hf : 31 ≤ fuel) :
    n < 2 ^ fuel := by
  have hp : (2 : Int) ^ 31 ≤ 2 ^ fuel := pow_le_pow_right₀ (by norm_num) hf
  unfold INT_MAX at h2
  have : (2 : Int) ^ 31 = 2147483648 := by norm_num
  omega

/-- For a negative `n` the loop of `mult_acc4` never reaches `n == 1`. -/
theorem mult_acc4_neg (fuel : Nat) : ∀ (r n a : Int), n < 0 →
    mult_acc4 fuel r n a = .error Fault.timeout := by
  induction fuel with
  | zero => intro r n a h; rfl
  | succ f ih =>
    intro r n a h
    have hn : n ≠ 1 := by omega
    have hh : half n < 0 := by rw [half_eq]; omega
    rw [mult_acc4]
    simp only [hn, if_false]
    split_ifs
    · exact ih _ _ _ hh
    · exact ih _ _ _ hh

/-- On a negative `n` the normalisation loop, when it ends, ends on a negative
odd value not below `n`. -/
theorem multiply_norm_neg (fuel : Nat) : ∀ (n a : Int), n < 0 →
    multiply_norm fuel n a = .error Fault.timeout ∨
      ∃ n' a', multiply_norm fuel n a = .ok (n', a') ∧ n ≤ n' ∧ n' < 0 ∧ n' % 2 = 1 := by
  induction fuel with
  | zero =>
    intro n a h
    rw [multiply_norm]
    by_cases ho : odd n = true
    · exact Or.inr ⟨n, a, by simp [ho], le_refl _, h, (odd_iff n).1 ho⟩
    · left; simp [ho]
  | succ f ih =>
    intro n a h
    rw [multiply_norm]
    by_cases ho : odd n = true
    · exact Or.inr ⟨n, a, by simp [ho], le_refl _, h, (odd_iff n).1 ho⟩
    · have hb : (!odd n) = true := by simpa using ho
      simp only [hb, if_true]
      have hh : half n < 0 := by rw [half_eq]; omega
      rcases ih (half n) (add32 a a) hh with e | ⟨n', a', e, p1, p2, p3⟩
      · exact Or.inl e
      · refine Or.inr ⟨n', a', e, ?_, p2, p3⟩
        rw [half_eq] at p1; omega

theorem multiply_neg (fuel : Nat) (n a : Int) (h : n < 0) (hmin : INT_MIN ≤ n) :
    multiply fuel n a = .error Fault.timeout := by
  unfold multiply
  rcases multiply_norm_neg fuel n a h with e | ⟨n', a', e, p1, p2, p3⟩
  · rw [e]
  · rw [e]
    have hn1 : n' ≠ 1 := by omega
    have hs : sub32 n' 1 = n' - 1 := by
      unfold sub32
      unfold INT_MIN at hmin
      exact wrap32_of_range (by unfold INT_MIN; omega) (by unfold INT_MAX; omega)
    simp only [hn1, if_false, hs]
    exact mult_acc4_neg fuel _ _ _ (by rw [half_eq]; omega)

theorem mult_acc4_sums_fst (fuel : Nat) : ∀ (r n a : Int),
    (mult_acc4_sums fuel r n a).1 = mult_acc4 fuel r n a := by
  induction fuel with
  | zero => intro r n a; rfl
  | succ f ih =>
    intro r n a
    rw [mult_acc4_sums, mult_acc4]
    split_ifs
    · rfl
    · exact ih _ _ _
    · exact ih _ _ _

theorem multiply_norm_sums_fst (fuel : Nat) : ∀ (n a : Int),
    (multiply_norm_sums fuel n a).1 = multiply_norm fuel n a := by
  induction fuel with
  | zero => intro n a; rw [multiply_norm_sums, multiply_norm]; split_ifs <;> rfl
  | succ f ih =>
    intro n a
    rw [multiply_norm_sums, multiply_norm]
    split_ifs
    · exact ih _ _
    · rfl

theorem multiply_sums_fst (fuel : Nat) (n a : Int) :
    (multiply_sums fuel n a).1 = multiply fuel n a := by
  unfold multiply_sums multiply
  rw [← multiply_norm_sums_fst]
  rcases multiply_norm_sums fuel n a with ⟨_ | ⟨n', a'⟩, l⟩
  · rfl
  · simp only
    split_ifs
    · rfl
    · exact mult_acc4_sums_fst _ _ _ _

/-- Every sum formed by the loop of `mult_acc4` lies between 1 and
`r + n * a`. -/
theorem mult_acc4_sums_bound (fuel : Nat) : ∀ (r n a : Int), 1 ≤ r → 1 ≤ n → 1 ≤ a →
    r + n * a ≤ INT_MAX →
    ∀ v ∈ (mult_acc4_sums fuel r n a).2, 1 ≤ v ∧ v ≤ r + n * a := by
  have hmin : INT_MIN ≤ 1 := by unfold INT_MIN; norm_num
  induction fuel with
  | zero => intro r n a _ _ _ _ v hv; simp [mult_acc4_sums] at hv
  | succ f ih =>
    intro r n a hr h1 ha hrep v hv
    rw [mult_acc4_sums] at hv
    by_cases hn : n = 1
    · subst hn
      simp only [odd_one, if_true, List.mem_singleton] at hv
      subst hv
      constructor <;> linarith
    · have h2n : 2 ≤ n := by omega
      have hna : a + a ≤ n * a := by
        have := mul_le_mul_of_nonneg_right h2n (show (0 : Int) ≤ a by omega)
        linarith
      have hra : r + a ≤ r + n * a := by linarith
      have haa : add32 a a = a + a := by
        unfold add32
        exact wrap32_of_range (by linarith) (by linarith)
      have hr2 : add32 r a = r + a := by
        unfold add32
        exact wrap32_of_range (by linarith) (by linarith)
      simp only [hn, if_false, haa, hr2, half_eq] at hv
      by_cases ho : odd n = true
      · have hm := (odd_iff n).1 ho
        have e : r + n * a = (r + a) + (n / 2) * (a + a) := by
          have : n = 2 * (n / 2) + 1 := by omega
          conv_lhs => rw [this]
          ring
        simp only [ho, if_true, List.mem_cons] at hv
        rcases hv with hv | hv | hv
        · subst hv; constructor <;> linarith
        · subst hv; constructor <;> linarith
        · have := ih (r + a) (n / 2) (a + a) (by omega) (by omega) (by omega)
            (by rw [← e]; exact hrep) v hv
          rw [← e] at this
          exact this
      · have hm := (odd_eq_false_iff n).1 (by simpa using ho)
        have e : r + n * a = r + (n / 2) * (a + a) := by
          have : n = 2 * (n / 2) := by omega
          conv_lhs => rw [this]
          ring
        simp only [ho, Bool.false_eq_true, if_false, List.mem_cons] at hv
        rcases hv with hv | hv
        · subst hv; constructor <;> linarith
        · have := ih r (n / 2) (a + a) hr (by omega) (by omega)
            (by rw [← e]; exact hrep) v hv
          rw [← e] at this
          exact this

/-- Every doubling of the normalisation loop lies between 1 and `n * a`, and
the loop keeps the product. -/
theorem multiply_norm_sums_bound (fuel : Nat) : ∀ (n a : Int), 1 ≤ n → 1 ≤ a →
    n * a ≤ INT_MAX →
    (∀ v ∈ (multiply_norm_sums fuel n a).2, 1 ≤ v ∧ v ≤ n * a) ∧
    (∀ n' a', (multiply_norm_sums fuel n a).1 = .ok (n', a') →
      n' % 2 = 1 ∧ 1 ≤ n' ∧ 1 ≤ a' ∧ n' * a' = n * a) := by
  have hmin : INT_MIN ≤ 1 := by unfold INT_MIN; norm_num
  induction fuel with
  | zero =>
    intro n a h1 ha hrep
    rw [multiply_norm_sums]
    by_cases ho : odd n = true
    · simp only [ho, Bool.not_true, Bool.false_eq_true, if_false, List.not_mem_nil,
        false_implies, implies_true, true_and]
      intro n' a' h
      simp only [Except.ok.injEq, Prod.mk.injEq] at h
      obtain ⟨rfl, rfl⟩ := h
      exact ⟨(odd_iff _).1 ho, h1, ha, rfl⟩
    · have hb : (!odd n) = true := by simpa using ho
      simp [hb]
  | succ f ih =>
    intro n a h1 ha hrep
    rw [multiply_norm_sums]
    by_cases ho : odd n = true
    · simp only [ho, Bool.not_true, Bool.false_eq_true, if_false, List.not_mem_nil,
        false_implies, implies_true, true_and]
      intro n' a' h
      simp only [Except.ok.injEq, Prod.mk.injEq] at h
      obtain ⟨rfl, rfl⟩ := h
      exact ⟨(odd_iff _).1 ho, h1, ha, rfl⟩
    · have hb : (!odd n) = true := by simpa using ho
      have hm := (odd_eq_false_iff n).1 (by simpa using ho)
      have h2n : 2 ≤ n := by omega
      have hna : a + a ≤ n * a := by
        have := mul_le_mul_of_nonneg_right h2n (show (0 : Int) ≤ a by omega)
        linarith
      have haa : add32 a a = a + a := by
        unfold add32
        exact wrap32_of_range (by linarith) (by linarith)
      have e : n * a = (n / 2) * (a + a) := by
        have : n = 2 * (n / 2) := by omega
        conv_lhs => rw [this]
        ring
      simp only [hb, if_true, haa, half_eq]
      obtain ⟨ih1, ih2⟩ := ih (n / 2) (a + a) (by omega) (by omega) (by rw [← e]; exact hrep)
      rw [← e] at ih1 ih2
      refine ⟨fun v hv => ?_, ih2⟩
      simp only [List.mem_cons] at hv
      rcases hv with hv | hv
      · subst hv; constructor <;> linarith
      · exact ih1 v hv

/-- Every sum formed by `multiply` on a valid pair with a representable
product lies between 1 and `n * a`. -/
theorem multiply_sums_bound (fuel : Nat) (n a : Int) (hn : 1 ≤ n) (ha : 1 ≤ a)
    (hrep : n * a ≤ INT_MAX) :
    ∀ v ∈ (multiply_sums fuel n a).2, 1 ≤ v ∧ v ≤ n * a := by
  have hmin : INT_MIN ≤ 1 := by unfold INT_MIN; norm_num
  obtain ⟨hb1, hb2⟩ := multiply_norm_sums_bound fuel n a hn ha hrep
  intro v hv
  unfold multiply_sums at hv
  rcases hres : multiply_norm_sums fuel n a with ⟨e | ⟨n', a'⟩, l⟩
  · rw [hres] at hv hb1
    exact hb1 v hv
  · rw [hres] at hv hb1 hb2
    obtain ⟨p1, p2, p3, p4⟩ := hb2 n' a' rfl
    simp only at hv
    by_cases hn1 : n' = 1
    · rw [if_pos hn1] at hv
      exact hb1 v hv
    · rw [if_neg hn1] at hv
      have h3n : 3 ≤ n' := by omega
      have hna : a' + a' ≤ n' * a' := by
        have := mul_le_mul_of_nonneg_right h3n (show (0 : Int) ≤ a' by omega)
        linarith
      have hnle : n' ≤ n' * a' := by
        have := mul_le_mul_of_nonneg_left p3 (show (0 : Int) ≤ n' by omega)
        linarith
      have haa : add32 a' a' = a' + a' := by
        unfold add32
        exact wrap32_of_range (by linarith) (by linarith)
      have hs : sub32 n' 1 = n' - 1 := by
        unfold sub32
        exact wrap32_of_range (by linarith) (by linarith)
      have e : n' * a' = a' + ((n' - 1) / 2) * (a' + a') := by
        have : n' = 2 * ((n' - 1) / 2) + 1 := by omega
        conv_lhs => rw [this]
        ring
      rw [haa, hs, half_eq] at hv
      simp only [List.mem_append, List.mem_cons] at hv
      rcases hv with hv | hv | hv
      · exact hb1 v hv
      · subst hv; constructor <;> linarith
      · have := mult_acc4_sums_bound fuel a' ((n' - 1) / 2) (a' + a') p3 (by omega) (by omega)
          (by rw [← e]; linarith) v hv
        rw [← e, p4] at this
        exact this

/-! ## The accumulator variants -/

/-- C11 as stated fails: `mult_acc0(0, 1, 1)` does not return `1 * 1`; the
accumulator `0` is rejected by `assert(r > 0 && n > 0 && a > 0)`. -/
theorem mult_acc0_zero_accumulator :
    mult_acc0 31 0 1 1 = .error Fault.assertion ∧ mult_acc0 31 0 1 1 ≠ .ok (0 + 1 * 1) := by
  decide

/-- C11, amended: for every accumulator `r ≥ 1` and every `n ≥ 1`, `a ≥ 1` with
`r + n * a` representable, `mult_acc0(r, n, a)` returns `r + n * a`; every call
with `r ≤ 0`, in particular `mult_acc0(0, n, a)`, aborts on the assertion. -/
theorem mult_acc0_correct (fuel : Nat) (r n a : Int) :
    (1 ≤ r → 1 ≤ n → 1 ≤ a → r + n * a ≤ INT_MAX → 31 ≤ fuel →
      mult_acc0 fuel r n a = .ok (r + n * a)) ∧
    (r ≤ 0 → mult_acc0 fuel r n a = .error Fault.assertion) := by
  constructor
  · intro hr hn ha hrep hf
    have hnle : n ≤ INT_MAX := by nlinarith
    have h1 := lt_two_pow_of_le_max fuel n hnle hf
    have hpow : (2 : Int) ^ (fuel + 1) = 2 * 2 ^ fuel := by ring
    exact mult_acc0_spec fuel r n a hr hn ha hrep (by rw [hpow]; omega)
  · intro hr
    exact mult_acc0_nonpos fuel r n a (Or.inl hr)

/-- C11, amended, at `r = 1`, `n = 5`, `a = 7`, and the rejected `r = 0`. -/
theorem mult_acc0_correct_witness :
    mult_acc0 31 1 5 7 = .ok (1 + 5 * 7) ∧ mult_acc0 31 0 5 7 = .error Fault.assertion :=
  ⟨(mult_acc0_correct 31 1 5 7).1 (by decide) (by decide) (by decide) (by decide) (by decide),
    (mult_acc0_correct 31 0 5 7).2 (by decide)⟩

/-- C14: for every accumulator `r`, every `n ≥ 1` and every `a` with `r + n * a`
representable in a 32-bit `int`, `mult_acc1`, `mult_acc2`, `mult_acc3` and the
loop `mult_acc4` all return `r + n * a` (31 iterations always suffice). -/
theorem mult_acc_variants_agree (fuel : Nat) (r n a : Int) (hn : 1 ≤ n) (hn2 : n ≤ INT_MAX)
    (h1 : INT_MIN ≤ r + n * a) (h2 : r + n * a ≤ INT_MAX) (hf : 31 ≤ fuel) :
    mult_acc1 fuel r n a = .ok (r + n * a) ∧ mult_acc2 fuel r n a = .ok (r + n * a) ∧
      mult_acc3 fuel r n a = .ok (r + n * a) ∧ mult_acc4 fuel r n a = .ok (r + n * a) := by
  have hlt := lt_two_pow_of_le_max fuel n hn2 hf
  have hpow : (2 : Int) ^ (fuel + 1) = 2 * 2 ^ fuel := by ring
  have hlt2 : n < 2 ^ (fuel + 1) := by rw [hpow]; omega
  have hw : wrap32 (r + n * a) = r + n * a := wrap32_of_range h1 h2
  refine ⟨?_, ?_, ?_, ?_⟩
  · rw [mult_acc1_wrap fuel r n a hn hlt2, hw]
  · rw [mult_acc2_wrap fuel r n a hn hlt2, hw]
  · rw [mult_acc3_wrap fuel r n a hn hlt2, hw]
  · rw [mult_acc4_wrap fuel r n a hn hlt, hw]

/-- C14 at `r = 3`, `n = 5000`, `a = 8392`. -/
theorem mult_acc_variants_agree_witness :
    mult_acc1 31 3 5000 8392 = .ok (3 + 5000 * 8392) ∧
      mult_acc2 31 3 5000 8392 = .ok (3 + 5000 * 8392) ∧
      mult_acc3 31 3 5000 8392 = .ok (3 + 5000 * 8392) ∧
      mult_acc4 31 3 5000 8392 = .ok (3 + 5000 * 8392) :=
  mult_acc_variants_agree 31 3 5000 8392 (by decide) (by decide) (by decide) (by decide)
    (by decide)

/-! ## Termination, overflow and wrap-around of `multiply` -/

/-- C15: `multiply(n, a)` terminates exactly when `n ≥ 1`.  For every `int`
`n ≥ 1` and every `int` `a` both loops finish within 31 iterations; for `n = 0`
the normalisation loop never exits and for `n < 0` the loop of `mult_acc4`
never reaches `n == 1`, so no budget of iterations yields a result. -/
theorem multiply_terminates_iff (n a : Int) (hn1 : INT_MIN ≤ n) (hn2 : n ≤ INT_MAX)
    (ha1 : INT_MIN ≤ a) (ha2 : a ≤ INT_MAX) :
    ((∃ fuel v, multiply fuel n a = .ok v) ↔ 1 ≤ n) ∧
    (1 ≤ n → ∀ fuel, 31 ≤ fuel → ∃ v, multiply fuel n a = .ok v) ∧
    (n = 0 → ∀ fuel, multiply_norm fuel n a = .error Fault.timeout) ∧
    (n < 0 → ∀ fuel r b, mult_acc4 fuel r n b = .error Fault.timeout) ∧
    (n < 1 → ∀ fuel, multiply fuel n a = .error Fault.timeout) := by
  have hzero : ∀ fuel, multiply fuel 0 a = .error Fault.timeout := by
    intro fuel
    unfold multiply
    rw [multiply_norm_zero]
  have hlow : n < 1 → ∀ fuel, multiply fuel n a = .error Fault.timeout := by
    intro h fuel
    by_cases h0 : n = 0
    · subst h0; exact hzero fuel
    · exact multiply_neg fuel n a (by omega) hn1
  refine ⟨⟨?_, ?_⟩, ?_, ?_, ?_, hlow⟩
  · rintro ⟨fuel, v, e⟩
    by_contra hc
    rw [hlow (by omega) fuel] at e
    exact absurd e (by simp)
  · intro h
    exact ⟨31, _, multiply_wrap 31 n a h hn2 ha1 ha2 (le_refl _)⟩
  · intro h fuel hf
    exact ⟨_, multiply_wrap fuel n a h hn2 ha1 ha2 hf⟩
  · intro h fuel
    subst h
    exact multiply_norm_zero fuel a
  · intro h fuel r b
    exact mult_acc4_neg fuel r n b h

/-- C15 at `n = 5000` (terminates), `n = 0` and `n = -3` (no result, here
with a budget of 1000 iterations). -/
theorem multiply_terminates_iff_witness :
    (∃ v, multiply 31 5000 8392 = .ok v) ∧
      multiply 1000 0 8392 = .error Fault.timeout ∧
      multiply 1000 (-3) 8392 = .error Fault.timeout :=
  ⟨(multiply_terminates_iff 5000 8392 (by decide) (by decide) (by decide) (by decide)).2.1
      (by decide) 31 (by decide),
    (multiply_terminates_iff 0 8392 (by decide) (by decide) (by decide) (by decide)).2.2.2.2
      (by decide) 1000,
    (multiply_terminates_iff (-3) 8392 (by decide) (by decide) (by decide) (by decide)).2.2.2.2
      (by decide) 1000⟩

/-- C16: for every `n ≥ 1` and `a ≥ 1` with `n * a ≤ 2^31 - 1`, `multiply(n, a)`
returns `n * a` and the exact value of every sum it forms (each doubled `a`,
each accumulator value `r + a`, and the argument `a + a` of `mult_acc4`) lies
in `[1, n * a]`, as does the initial accumulator `a`, hence within the `int`
range: no addition overflows. -/
theorem multiply_no_overflow (fuel : Nat) (n a : Int) (hn : 1 ≤ n) (ha : 1 ≤ a)
    (hrep : n * a ≤ INT_MAX) (hf : 31 ≤ fuel) :
    (multiply_sums fuel n a).1 = .ok (n * a) ∧ (1 ≤ a ∧ a ≤ n * a) ∧
      ∀ v ∈ (multiply_sums fuel n a).2,
        (1 ≤ v ∧ v ≤ n * a) ∧ (INT_MIN ≤ v ∧ v ≤ INT_MAX) ∧ wrap32 v = v := by
  have hna : n ≤ n * a := by nlinarith
  have han : a ≤ n * a := by nlinarith
  have hmin : INT_MIN ≤ 1 := by unfold INT_MIN; norm_num
  refine ⟨?_, ⟨ha, han⟩, ?_⟩
  · rw [multiply_sums_fst,
      multiply_wrap fuel n a hn (le_trans hna hrep) (by linarith) (le_trans han hrep) hf,
      wrap32_of_range (by linarith) hrep]
  · intro v hv
    have hb := multiply_sums_bound fuel n a hn ha hrep v hv
    exact ⟨hb, ⟨by linarith [hb.1], by linarith [hb.2]⟩,
      wrap32_of_range (by linarith [hb.1]) (by linarith [hb.2])⟩

/-- C16 at the driver's `multiply(5000, 8392)`: the sixteen sums formed, and
the bound for the sum `34373632` among them. -/
theorem multiply_no_overflow_witness :
    multiply_sums 31 5000 8392 =
      (.ok 41960000, [16784, 33568, 67136, 134272, 268544, 537088, 1074176, 1141312,
        2148352, 3289664, 4296704, 7586368, 8593408, 17186816, 34373632, 41960000]) ∧
      ((1 : Int) ≤ 34373632 ∧ (34373632 : Int) ≤ 5000 * 8392) :=
  ⟨by decide,
    ((multiply_no_overflow 31 5000 8392 (by decide) (by decide) (by decide) (by decide)).2.2
      34373632 (by decide)).1⟩

/-- C20: with `int` a 32-bit two's-complement integer and wrap-around
addition, for every `int` `n ≥ 1` and every `int` `a` (also `a ≤ 0`, also when
the product overflows) `multiply(n, a)` returns `n * a` reduced modulo `2^32`
to the signed range; whenever `n * a` is representable, whatever the sign of
`a`, it returns exactly `n * a`. -/
theorem multiply_modular (fuel : Nat) (n a : Int) (hn : 1 ≤ n) (hn2 : n ≤ INT_MAX)
    (ha1 : INT_MIN ≤ a) (ha2 : a ≤ INT_MAX) (hf : 31 ≤ fuel) :
    multiply fuel n a = .ok (wrap32 (n * a)) ∧
      wrap32 (n * a) ≡ n * a [ZMOD 4294967296] ∧
      (INT_MIN ≤ wrap32 (n * a) ∧ wrap32 (n * a) ≤ INT_MAX) ∧
      (INT_MIN ≤ n * a → n * a ≤ INT_MAX → multiply fuel n a = .ok (n * a)) := by
  have h := multiply_wrap fuel n a hn hn2 ha1 ha2 hf
  refine ⟨h, wrap32_modEq _, wrap32_range _, fun h1 h2 => ?_⟩
  rw [h, wrap32_of_range h1 h2]

/-- C20 at `multiply(3, -7)` (a non-positive `a`) and at the overflowing
`multiply(65536, 65536)`, which wraps to 0. -/
theorem multiply_modular_witness :
    multiply 31 3 (-7) = .ok (3 * -7) ∧ multiply 31 65536 65536 = .ok (wrap32 (65536 * 65536)) :=
  ⟨(multiply_modular 31 3 (-7) (by decide) (by decide) (by decide) (by decide)
      (by decide)).2.2.2 (by decide) (by decide),
    (multiply_modular 31 65536 65536 (by decide) (by decide) (by decide) (by decide)
      (by decide)).1⟩

end Multiply

namespace Sieve

/-! ## The marking step -/

theorem store_ok (arr : List Bool) (p : Nat) (v : Bool) (h : p < arr.length) :
    store arr p v = .ok (arr.set p v) := by
  simp [store, h]

theorem mark_cond_shift (first last f j : Nat) (hj : j ≠ first + f) :
    (first + f < j ∧ j < last ∧ f ∣ (j - (first + f))) ↔
      (first < j ∧ j < last ∧ f ∣ (j - first)) := by
  constructor
  · rintro ⟨h1, h2, h3⟩
    refine ⟨by omega, h2, ?_⟩
    have e : j - first = (j - (first + f)) + f := by omega
    rw [e]
    exact dvd_add h3 (dvd_refl f)
  · rintro ⟨h1, h2, h3⟩
    have hge : f ≤ j - first := Nat.le_of_dvd (by omega) h3
    refine ⟨by omega, h2, ?_⟩
    have e : j - (first + f) = (j - first) - f := by omega
    rw [e]
    exact Nat.dvd_sub' h3 (dvd_refl f)

/-- The loop of `mark_sieve` clears exactly the positions `first + m * factor`
(`m ≥ 1`) below `last`. -/
theorem mark_sieve_loop_spec (last f : Nat) (hf : 1 ≤ f) (fuel : Nat) :
    ∀ (arr : List Bool) (first : Nat), first < last → last ≤ arr.length →
      last - first ≤ fuel + 1 →
      ∃ arr', mark_sieve_loop fuel arr first last f = .ok arr' ∧
        arr'.length = arr.length ∧
        ∀ j, arr'[j]? =
          if first < j ∧ j < last ∧ f ∣ (j - first) then some false else arr[j]? := by
  induction fuel with
  | zero =>
    intro arr first h1 h2 h3
    have hc : ¬ ((last : Int) - (first : Int) > (f : Int)) := by omega
    refine ⟨arr, by rw [mark_sieve_loop]; simp [hc], rfl, fun j => ?_⟩
    rw [if_neg]
    omega
  | succ k ih =>
    intro arr first h1 h2 h3
    by_cases hc : (last : Int) - (first : Int) > (f : Int)
    · have hlt : first + f < last := by omega
      obtain ⟨arr', e, hl, hp⟩ := ih (arr.set (first + f) false) (first + f) hlt
        (by simpa using h2) (by omega)
      refine ⟨arr', ?_, by simpa using hl, fun j => ?_⟩
      · rw [mark_sieve_loop]
        simp only [hc, if_true, store_ok arr (first + f) false (by omega)]
        exact e
      · rw [hp j, List.getElem?_set]
        by_cases hj : j = first + f
        · subst hj
          have hin : first + f < arr.length := by omega
          have hpos : 0 < f := by omega
          simp [hin, hlt, hpos]
        · have hj2 : ¬ (first + f = j) := fun h => hj h.symm
          simp only [hj2, if_false]
          by_cases hcond : first < j ∧ j < last ∧ f ∣ (j - first)
          · rw [if_pos hcond, if_pos ((mark_cond_shift first last f j hj).2 hcond)]
          · rw [if_neg hcond, if_neg (fun h => hcond ((mark_cond_shift first last f j hj).1 h))]
    · refine ⟨arr, by rw [mark_sieve_loop]; simp [hc], rfl, fun j => ?_⟩
      rw [if_neg]
      rintro ⟨a1, a2, a3⟩
      have hge : f ≤ j - first := Nat.le_of_dvd (by omega) a3
      omega

/-- Pointwise description of `mark_sieve` on a non-empty range. -/
theorem mark_sieve_spec (fuel : Nat) (arr : List Bool) (first last f : Nat)
    (h1 : first < last) (h2 : last ≤ arr.length) (hf : 1 ≤ f)
    (h3 : last - first ≤ fuel + 1) :
    ∃ arr', mark_sieve fuel arr first last f = .ok arr' ∧ arr'.length = arr.length ∧
      ∀ j, arr'[j]? =
        if first ≤ j ∧ j < last ∧ f ∣ (j - first) then some false else arr[j]? := by
  obtain ⟨arr', e, hl, hp⟩ := mark_sieve_loop_spec last f hf fuel (arr.set first false) first h1
    (by simpa using h2) h3
  refine ⟨arr', ?_, by simpa using hl, fun j => ?_⟩
  · unfold mark_sieve
    rw [store_ok arr first false (by omega)]
    exact e
  · rw [hp j, List.getElem?_set]
    by_cases hj : first = j
    · subst hj
      have hin : first < arr.length := by omega
      simp [hin, h1]
    · simp only [hj, if_false]
      by_cases hcond : first < j ∧ j < last ∧ f ∣ (j - first)
      · rw [if_pos hcond, if_pos ⟨by omega, hcond.2⟩]
      · rw [if_neg hcond, if_neg (fun h => hcond ⟨by omega, h.2⟩)]

/-- C4: for every array, every start `s` and end bound `e` with
`s < e ≤ length` and every factor `f ≥ 1`, `mark_sieve(s, e, f)` returns with
exactly the slots `s, s+f, s+2f, ...` below `e` set to false (the positions `j`
with `s ≤ j < e` and `f ∣ j - s`) and every other slot unchanged. -/
theorem mark_sieve_clears (fuel : Nat) (arr : List Bool) (s e f : Nat)
    (hse : s < e) (he : e ≤ arr.length) (hf : 1 ≤ f) (hfuel : e ≤ fuel) :
    mark_sieve fuel arr s e f =
      .ok (arr.mapIdx fun j b => if s ≤ j ∧ j < e ∧ f ∣ (j - s) then false else b) := by
  obtain ⟨arr', e1, hl, hp⟩ := mark_sieve_spec fuel arr s e f hse he hf (by omega)
  rw [e1]
  congr 1
  apply List.ext_getElem?
  intro j
  rw [hp j, List.getElem?_mapIdx]
  by_cases hj : j < arr.length
  · rw [List.getElem?_eq_getElem hj]
    by_cases hc : s ≤ j ∧ j < e ∧ f ∣ (j - s) <;> simp [hc]
  · have hn : arr[j]? = none := List.getElem?_eq_none (by omega)
    rw [hn, if_neg (by omega)]
    rfl

/-- C4 on a range of length 10 from position 0 with factor 3: exactly
0, 3, 6, 9 are cleared. -/
theorem mark_sieve_clears_witness :
    mark_sieve 10 (List.replicate 10 true) 0 10 3 =
      .ok [false, true, true, false, true, true, false, true, true, false] := by
  rw [mark_sieve_clears 10 (List.replicate 10 true) 0 10 3 (by decide) (by decide)
    (by decide) (by decide)]
  decide

theorem marked_zero (j : Nat) : ¬ Marked 0 j := by
  rintro ⟨k, hk, _⟩
  omega

theorem marked_succ (i j : Nat) :
    Marked (i + 1) j ↔
      Marked i j ∨ (Nat.Prime (2 * i + 3) ∧ (2 * i + 3) ∣ (2 * j + 3) ∧
        (2 * i + 3) ^ 2 ≤ 2 * j + 3) := by
  constructor
  · rintro ⟨k, hk, h⟩
    by_cases hki : k = i
    · subst hki; exact Or.inr h
    · exact Or.inl ⟨k, by omega, h⟩
  · rintro (⟨k, hk, h⟩ | h)
    · exact ⟨k, by omega, h⟩
    · exact ⟨i, by omega, h⟩

theorem index_square_value (i : Nat) : 2 * (2 * i ^ 2 + 6 * i + 3) + 3 = (2 * i + 3) ^ 2 := by
  ring

/-- The multiples of `2i+3` from its square on are the slots
`index_square + m * factor`. -/
theorem crossed_iff (i j : Nat) :
    ((2 * i + 3) ∣ (2 * j + 3) ∧ (2 * i + 3) ^ 2 ≤ 2 * j + 3) ↔
      (2 * i ^ 2 + 6 * i + 3 ≤ j ∧ (2 * i + 3) ∣ (j - (2 * i ^ 2 + 6 * i + 3))) := by
  have hsq := index_square_value i
  have hcop : Nat.Coprime (2 * i + 3) 2 := by
    rw [Nat.coprime_comm, Nat.Prime.coprime_iff_not_dvd Nat.prime_two]
    omega
  have hdvd : (2 * i + 3) ∣ (2 * i + 3) ^ 2 := dvd_pow_self _ (by norm_num)
  constructor
  · rintro ⟨h1, h2⟩
    refine ⟨by omega, ?_⟩
    have e : 2 * (j - (2 * i ^ 2 + 6 * i + 3)) = (2 * j + 3) - (2 * i + 3) ^ 2 := by omega
    have h3 : (2 * i + 3) ∣ 2 * (j - (2 * i ^ 2 + 6 * i + 3)) := by
      rw [e]; exact Nat.dvd_sub' h1 hdvd
    exact hcop.dvd_of_dvd_mul_left h3
  · rintro ⟨h1, h2⟩
    refine ⟨?_, by omega⟩
    have e : 2 * j + 3 = 2 * (j - (2 * i ^ 2 + 6 * i + 3)) + (2 * i + 3) ^ 2 := by omega
    rw [e]
    exact dvd_add (Dvd.dvd.mul_left h2 2) hdvd

/-- Below the square of `2i+3` the slots left standing by the first `i` factors
are exactly the primes. -/
theorem not_marked_iff_prime (i j : Nat) (h : 2 * j + 3 < (2 * i + 3) ^ 2) :
    ¬ Marked i j ↔ Nat.Prime (2 * j + 3) := by
  constructor
  · intro hm
    by_contra hp
    apply hm
    have hp1 : Nat.Prime (Nat.minFac (2 * j + 3)) := Nat.minFac_prime (by omega)
    have hd : Nat.minFac (2 * j + 3) ∣ 2 * j + 3 := Nat.minFac_dvd _
    have hs : Nat.minFac (2 * j + 3) ^ 2 ≤ 2 * j + 3 := Nat.minFac_sq_le_self (by omega) hp
    have h2 : Nat.minFac (2 * j + 3) ≠ 2 := by
      intro e
      rw [e] at hd
      omega
    have h3 : 3 ≤ Nat.minFac (2 * j + 3) := by
      have := hp1.two_le
      omega
    have hodd : Nat.minFac (2 * j + 3) % 2 = 1 := by
      rcases hp1.eq_two_or_odd with e | e
      · exact absurd e h2
      · exact e
    have hlt : Nat.minFac (2 * j + 3) < 2 * i + 3 := by
      by_contra hge
      have : (2 * i + 3) ^ 2 ≤ Nat.minFac (2 * j + 3) ^ 2 :=
        Nat.pow_le_pow_left (by omega) 2
      omega
    refine ⟨(Nat.minFac (2 * j + 3) - 3) / 2, by omega, ?_⟩
    have e : 2 * ((Nat.minFac (2 * j + 3) - 3) / 2) + 3 = Nat.minFac (2 * j + 3) := by omega
    rw [e]
    exact ⟨hp1, hd, hs⟩
  · rintro hp ⟨k, hk, hq, hd, hs⟩
    rcases (Nat.dvd_prime hp).1 hd with e | e
    · omega
    · rw [e] at hs
      have : 2 * j + 3 < (2 * j + 3) ^ 2 := by nlinarith
      omega

/-! ## The loop of `sift` -/

theorem load_of_getElem? (arr : List Bool) (p : Nat) (b : Bool) (h : arr[p]? = some b) :
    load arr p = .ok b := by
  simp [load, h]

/-- One iteration of the loop of `sift` keeps `SiftInv`. -/
theorem sift_step_inv (arr0 : List Bool) (n : Nat) (s : SiftState) (arr' : List Bool)
    (hinv : SiftInv arr0 n s) (hl : arr'.length = s.arr.length)
    (hp : ∀ j, arr'[j]? =
      if Nat.Prime (2 * s.i + 3) ∧ s.index_square ≤ j ∧ j < n ∧ s.factor ∣ (j - s.index_square)
      then some false else s.arr[j]?) :
    SiftInv arr0 n
      { arr := arr'
        i := s.i + 1
        index_square := s.index_square + s.factor + (s.factor + 2)
        factor := s.factor + 2 } := by
  obtain ⟨hf, hi, hlen, hlow, hhigh⟩ := hinv
  refine ⟨by simp only; omega, ?_, by simp only; omega, fun j hj => ?_, fun j hj => ?_⟩
  · simp only
    rw [hf, hi]
    ring
  · simp only
    rw [hp j, hlow j hj, hf, hi]
    have hc := crossed_iff s.i j
    have hm := marked_succ s.i j
    by_cases hcond : Nat.Prime (2 * s.i + 3) ∧ 2 * s.i ^ 2 + 6 * s.i + 3 ≤ j ∧ j < n ∧
        (2 * s.i + 3) ∣ (j - (2 * s.i ^ 2 + 6 * s.i + 3))
    · rw [if_pos hcond]
      have : Marked (s.i + 1) j := hm.2 (Or.inr ⟨hcond.1, hc.2 ⟨hcond.2.1, hcond.2.2.2⟩⟩)
      simp [this]
    · rw [if_neg hcond]
      congr 1
      apply decide_eq_decide.2
      rw [hm]
      constructor
      · rintro h1 (h2 | h2)
        · exact h1 h2
        · exact hcond ⟨h2.1, (hc.1 h2.2).1, hj, (hc.1 h2.2).2⟩
      · intro h1 h2
        exact h1 (Or.inl h2)
  · simp only
    rw [hp j, if_neg (by omega)]
    exact hhigh j hj

/-- The loop of `sift` runs to its exit, where `SiftInv` holds and
`index_square` has reached `n`. -/
theorem sift_loop_inv (fuel n : Nat) (arr0 : List Bool) (hn : n ≤ arr0.length)
    (hfuel : n ≤ fuel) (k : Nat) :
    ∀ s : SiftState, SiftInv arr0 n s → n ≤ s.index_square + k →
      ∃ s', sift_loop fuel k n s = .ok s' ∧ SiftInv arr0 n s' ∧ n ≤ s'.index_square := by
  induction k with
  | zero =>
    intro s hinv hk
    refine ⟨s, ?_, hinv, by omega⟩
    rw [sift_loop, if_neg (by omega)]
  | succ k ih =>
    intro s hinv hk
    by_cases hlt : s.index_square < n
    · obtain ⟨hf, hi, hlen, hlow, hhigh⟩ := hinv
      have hii : s.i < s.index_square := by
        rw [hi]
        have : 0 ≤ 2 * s.i ^ 2 := Nat.zero_le _
        omega
      have hsq : 2 * s.i + 3 < (2 * s.i + 3) ^ 2 := by nlinarith
      have hb : s.arr[s.i]? = some (decide (Nat.Prime (2 * s.i + 3))) := by
        rw [hlow s.i (by omega)]
        congr 1
        exact decide_eq_decide.2 (not_marked_iff_prime s.i s.i hsq)
      rw [sift_loop, if_pos hlt]
      simp only [load_of_getElem? _ _ _ hb]
      by_cases hpr : Nat.Prime (2 * s.i + 3)
      · obtain ⟨arr', e, hl, hp⟩ := mark_sieve_spec fuel s.arr s.index_square n s.factor hlt
          (by omega) (by omega) (by omega)
        simp only [hpr, decide_True, if_true, e]
        apply ih
        · apply sift_step_inv arr0 n s arr' ⟨hf, hi, hlen, hlow, hhigh⟩ hl
          intro j
          rw [hp j]
          simp only [hpr, true_and]
        · simp only; omega
      · simp only [hpr, decide_False, Bool.false_eq_true, if_false]
        apply ih
        · apply sift_step_inv arr0 n s s.arr ⟨hf, hi, hlen, hlow, hhigh⟩ rfl
          intro j
          simp only [hpr, false_and, if_false]
        · simp only; omega
    · refine ⟨s, ?_, hinv, by omega⟩
      rw [sift_loop, if_neg hlt]

theorem fill_ok (arr : List Bool) (n : Nat) (v : Bool) (h : n ≤ arr.length) :
    fill arr n v = .ok (List.replicate n v ++ arr.drop n) := by
  simp [fill, h]

/-- The state in which `sift` leaves its loop. -/
theorem sift_run_spec (fuel n : Nat) (arr : List Bool) (hn : n ≤ arr.length)
    (hfuel : n ≤ fuel) :
    ∃ s', sift_run fuel arr n = .ok s' ∧ SiftInv arr n s' ∧ n ≤ s'.index_square := by
  unfold sift_run
  rw [fill_ok arr n true hn]
  apply sift_loop_inv fuel n arr hn hfuel fuel
  · refine ⟨rfl, rfl, by simp; omega, fun j hj => ?_, fun j hj => ?_⟩
    · simp only
      rw [List.getElem?_append_left (by simpa using hj), List.getElem?_replicate, if_pos hj]
      simp [marked_zero]
    · simp only
      rw [List.getElem?_append_right (by simpa using hj), List.getElem?_drop]
      simp only [List.length_replicate]
      congr 1
      omega
  · simp only; omega

theorem getElem?_prime_flags (n j : Nat) (hj : j < n) :
    (prime_flags n)[j]? = some (decide (Nat.Prime (2 * j + 3))) := by
  unfold prime_flags
  rw [List.getElem?_map, List.getElem?_range hj]
  rfl

theorem length_prime_flags (n : Nat) : (prime_flags n).length = n := by
  simp [prime_flags]

/-- The array `sift` leaves: the prime flags in the first `n` slots, the rest
as it was. -/
theorem sift_eq (fuel n : Nat) (arr : List Bool) (hn : n ≤ arr.length) (hfuel : n ≤ fuel) :
    sift fuel arr n = .ok (prime_flags n ++ arr.drop n) := by
  obtain ⟨s', e, ⟨hf, hi, hlen, hlow, hhigh⟩, hexit⟩ := sift_run_spec fuel n arr hn hfuel
  unfold sift
  rw [e]
  simp only
  congr 1
  apply List.ext_getElem?
  intro j
  by_cases hj : j < n
  · rw [hlow j hj, List.getElem?_append_left (by rw [length_prime_flags]; exact hj),
      getElem?_prime_flags n j hj]
    congr 1
    apply decide_eq_decide.2
    apply not_marked_iff_prime
    have := index_square_value s'.i
    omega
  · rw [hhigh j (by omega),
      List.getElem?_append_right (by rw [length_prime_flags]; omega),
      List.getElem?_drop, length_prime_flags]
    congr 1
    omega

/-! ## The sieve contract -/

theorem sift_loop_succ (fuel k n : Nat) (s : SiftState) (h : s.index_square < n) :
    sift_loop fuel (k + 1) n s =
      match sift_body fuel n s with
      | .error e => .error e
      | .ok s1 => sift_loop fuel k n s1 := by
  rw [sift_loop, if_pos h]
  unfold sift_body
  rcases load s.arr s.i with e | b
  · rfl
  · simp only
    rcases (if b = true then mark_sieve fuel s.arr s.index_square n s.factor
      else Except.ok s.arr) with e | arr
    · rfl
    · rfl

theorem sift_loop_exit (fuel k n : Nat) (s : SiftState) (h : ¬ s.index_square < n) :
    sift_loop fuel k n s = .ok s := by
  cases k <;> simp [sift_loop, h]

theorem sift_heads_succ (fuel k n : Nat) (s : SiftState) (h : s.index_square < n) :
    sift_heads fuel (k + 1) n s =
      match sift_body fuel n s with
      | .error _ => [s]
      | .ok s1 => s :: sift_heads fuel k n s1 := by
  rw [sift_heads, if_pos h]

theorem sift_heads_exit (fuel k n : Nat) (s : SiftState) (h : ¬ s.index_square < n) :
    sift_heads fuel k n s = [s] := by
  cases k <;> simp [sift_heads, h]

theorem sift_heads_zero (fuel n : Nat) (s : SiftState) : sift_heads fuel 0 n s = [s] := by
  rw [sift_heads]
  split_ifs <;> rfl

theorem sift_body_fields (fuel n : Nat) (s s1 : SiftState) (h : sift_body fuel n s = .ok s1) :
    s1.i = s.i + 1 ∧ s1.factor = s.factor + 2 ∧
      s1.index_square = s.index_square + (s.factor + s1.factor) := by
  unfold sift_body at h
  rcases hl : load s.arr s.i with e | b
  · rw [hl] at h; simp at h
  · rw [hl] at h
    simp only at h
    rcases hm : (if b = true then mark_sieve fuel s.arr s.index_square n s.factor
      else Except.ok s.arr) with e | arr
    · rw [hm] at h; simp at h
    · rw [hm] at h
      simp only [Except.ok.injEq] at h
      subst h
      refine ⟨rfl, rfl, ?_⟩
      show s.index_square + s.factor + (s.factor + 2) =
        s.index_square + (s.factor + (s.factor + 2))
      omega

/-- The two formulas hold in every state in which the loop condition is
evaluated. -/
theorem sift_heads_formula (fuel n : Nat) (k : Nat) : ∀ s : SiftState,
    s.factor = 2 * s.i + 3 → s.index_square = 2 * s.i ^ 2 + 6 * s.i + 3 →
    ∀ t ∈ sift_heads fuel k n s,
      t.factor = 2 * t.i + 3 ∧ t.index_square = 2 * t.i ^ 2 + 6 * t.i + 3 := by
  induction k with
  | zero =>
    intro s h1 h2 t ht
    rw [sift_heads_zero, List.mem_singleton] at ht
    subst ht; exact ⟨h1, h2⟩
  | succ k ih =>
    intro s h1 h2 t ht
    by_cases h : s.index_square < n
    · rw [sift_heads_succ fuel k n s h] at ht
      rcases hb : sift_body fuel n s with e | s1
      · rw [hb] at ht
        simp only [List.mem_singleton] at ht
        subst ht; exact ⟨h1, h2⟩
      · rw [hb] at ht
        simp only [List.mem_cons] at ht
        rcases ht with ht | ht
        · subst ht; exact ⟨h1, h2⟩
        · obtain ⟨f1, f2, f3⟩ := sift_body_fields fuel n s s1 hb
          refine ih s1 (by omega) ?_ t ht
          rw [f3, f2, f1, h2, h1]
          ring
    · rw [sift_heads_exit fuel _ n s h, List.mem_singleton] at ht
      subst ht; exact ⟨h1, h2⟩

/-- The list of loop heads ends in the state the loop returns, and every
earlier head still satisfies the loop condition. -/
theorem sift_heads_last (fuel n : Nat) (k : Nat) : ∀ s s' : SiftState,
    sift_loop fuel k n s = .ok s' →
    (sift_heads fuel k n s).getLast? = some s' ∧ ¬ s'.index_square < n ∧
      ∀ t ∈ sift_heads fuel k n s, t = s' ∨ t.index_square < n := by
  induction k with
  | zero =>
    intro s s' h
    by_cases hc : s.index_square < n
    · rw [sift_loop, if_pos hc] at h
      simp at h
    · rw [sift_loop_exit fuel 0 n s hc] at h
      simp only [Except.ok.injEq] at h
      subst h
      rw [sift_heads_zero]
      exact ⟨rfl, hc, fun t ht => Or.inl (List.mem_singleton.1 ht)⟩
  | succ k ih =>
    intro s s' h
    by_cases hc : s.index_square < n
    · rw [sift_loop_succ fuel k n s hc] at h
      rw [sift_heads_succ fuel k n s hc]
      rcases hb : sift_body fuel n s with e | s1
      · rw [hb] at h; simp at h
      · rw [hb] at h
        simp only at h ⊢
        obtain ⟨i1, i2, i3⟩ := ih s1 s' h
        refine ⟨?_, i2, fun t ht => ?_⟩
        · rw [List.getLast?_cons, i1]; rfl
        · simp only [List.mem_cons] at ht
          rcases ht with ht | ht
          · subst ht; exact Or.inr hc
          · exact i3 t ht
    · rw [sift_loop_exit fuel _ n s hc] at h
      simp only [Except.ok.injEq] at h
      subst h
      rw [sift_heads_exit fuel _ n s hc]
      exact ⟨rfl, hc, fun t ht => Or.inl (List.mem_singleton.1 ht)⟩

theorem sift_init_inv (arr : List Bool) (n : Nat) (hn : n ≤ arr.length) :
    SiftInv arr n
      { arr := List.replicate n true ++ arr.drop n, i := 0, index_square := 3, factor := 3 } := by
  refine ⟨rfl, rfl, by simp; omega, fun j hj => ?_, fun j hj => ?_⟩
  · simp only
    rw [List.getElem?_append_left (by simpa using hj), List.getElem?_replicate, if_pos hj]
    simp [marked_zero]
  · simp only
    rw [List.getElem?_append_right (by simpa using hj), List.getElem?_drop]
    simp only [List.length_replicate]
    congr 1
    omega

/-- In a state satisfying `SiftInv` with the loop condition true, the load
`first[i]` is in bounds and reads the primality of `factor`, and the body runs
to a state satisfying `SiftInv`. -/
theorem sift_body_inv (fuel n : Nat) (arr0 : List Bool) (s : SiftState)
    (hn : n ≤ arr0.length) (hfuel : n ≤ fuel) (hinv : SiftInv arr0 n s)
    (hlt : s.index_square < n) :
    s.i < s.index_square ∧ load s.arr s.i = .ok (decide (Nat.Prime s.factor)) ∧
      (∃ arr', mark_sieve fuel s.arr s.index_square n s.factor = .ok arr' ∧
        arr'.length = s.arr.length) ∧
      ∃ s1, sift_body fuel n s = .ok s1 ∧ SiftInv arr0 n s1 := by
  obtain ⟨hf, hi, hlen, hlow, hhigh⟩ := hinv
  have hii : s.i < s.index_square := by
    rw [hi]
    have : 0 ≤ 2 * s.i ^ 2 := Nat.zero_le _
    omega
  have hsq : 2 * s.i + 3 < (2 * s.i + 3) ^ 2 := by nlinarith
  have hb : s.arr[s.i]? = some (decide (Nat.Prime (2 * s.i + 3))) := by
    rw [hlow s.i (by omega)]
    congr 1
    exact decide_eq_decide.2 (not_marked_iff_prime s.i s.i hsq)
  have hload : load s.arr s.i = .ok (decide (Nat.Prime s.factor)) := by
    rw [hf]; exact load_of_getElem? _ _ _ hb
  obtain ⟨arr', e, hl, hp⟩ := mark_sieve_spec fuel s.arr s.index_square n s.factor hlt
    (by omega) (by omega) (by omega)
  refine ⟨hii, hload, ⟨arr', e, hl⟩, ?_⟩
  unfold sift_body
  rw [hload]
  simp only
  by_cases hpr : Nat.Prime (2 * s.i + 3)
  · have hpr' : Nat.Prime s.factor := by rw [hf]; exact hpr
    simp only [hpr', decide_True, if_true, e]
    refine ⟨_, rfl, ?_⟩
    apply sift_step_inv arr0 n s arr' ⟨hf, hi, hlen, hlow, hhigh⟩ hl
    intro j
    rw [hp j]
    simp only [hpr, true_and]
  · have hpr' : ¬ Nat.Prime s.factor := by rw [hf]; exact hpr
    simp only [hpr', decide_False, Bool.false_eq_true, if_false]
    refine ⟨_, rfl, ?_⟩
    apply sift_step_inv arr0 n s s.arr ⟨hf, hi, hlen, hlow, hhigh⟩ rfl
    intro j
    simp only [hpr, false_and, if_false]

/-- `SiftInv` holds in every state in which the loop condition is evaluated. -/
theorem sift_heads_inv (fuel n : Nat) (arr0 : List Bool) (hn : n ≤ arr0.length)
    (hfuel : n ≤ fuel) (k : Nat) : ∀ s : SiftState, SiftInv arr0 n s →
    ∀ t ∈ sift_heads fuel k n s, SiftInv arr0 n t := by
  induction k with
  | zero =>
    intro s hinv t ht
    rw [sift_heads_zero, List.mem_singleton] at ht
    subst ht; exact hinv
  | succ k ih =>
    intro s hinv t ht
    by_cases h : s.index_square < n
    · rw [sift_heads_succ fuel k n s h] at ht
      obtain ⟨_, _, _, s1, hb, hinv1⟩ := sift_body_inv fuel n arr0 s hn hfuel hinv h
      rw [hb] at ht
      simp only [List.mem_cons] at ht
      rcases ht with ht | ht
      · subst ht; exact hinv
      · exact ih s1 hinv1 t ht
    · rw [sift_heads_exit fuel _ n s h, List.mem_singleton] at ht
      subst ht; exact hinv

/-- The state the loop returns is the first whose `index_square` reaches `n`. -/
theorem sift_loop_exit_min (fuel n : Nat) (k : Nat) : ∀ s s' : SiftState,
    sift_loop fuel k n s = .ok s' →
    s.index_square = 2 * s.i ^ 2 + 6 * s.i + 3 → s.factor = 2 * s.i + 3 →
    (s.i = 0 ∨ 2 * (s.i - 1) ^ 2 + 6 * (s.i - 1) + 3 < n) →
    (s'.i = 0 ∨ 2 * (s'.i - 1) ^ 2 + 6 * (s'.i - 1) + 3 < n) := by
  induction k with
  | zero =>
    intro s s' h h1 h2 h3
    by_cases hc : s.index_square < n
    · rw [sift_loop, if_pos hc] at h
      simp at h
    · rw [sift_loop_exit fuel 0 n s hc] at h
      simp only [Except.ok.injEq] at h
      subst h; exact h3
  | succ k ih =>
    intro s s' h h1 h2 h3
    by_cases hc : s.index_square < n
    · rw [sift_loop_succ fuel k n s hc] at h
      rcases hb : sift_body fuel n s with e | s1
      · rw [hb] at h; simp at h
      · rw [hb] at h
        simp only at h
        obtain ⟨f1, f2, f3⟩ := sift_body_fields fuel n s s1 hb
        refine ih s1 s' h ?_ (by omega) ?_
        · rw [f3, f2, f1, h1, h2]; ring
        · right
          rw [f1, Nat.add_sub_cancel, ← h1]
          exact hc
    · rw [sift_loop_exit fuel _ n s hc] at h
      simp only [Except.ok.injEq] at h
      subst h; exact h3

/-- The state the loop returns is the start state or the result of the body
in some head state with the loop condition true. -/
theorem sift_loop_pred (fuel n : Nat) (k : Nat) : ∀ s s' : SiftState,
    sift_loop fuel k n s = .ok s' →
    s' = s ∨ ∃ t ∈ sift_heads fuel k n s, t.index_square < n ∧ sift_body fuel n t = .ok s' := by
  induction k with
  | zero =>
    intro s s' h
    by_cases hc : s.index_square < n
    · rw [sift_loop, if_pos hc] at h
      simp at h
    · rw [sift_loop_exit fuel 0 n s hc] at h
      simp only [Except.ok.injEq] at h
      exact Or.inl h.symm
  | succ k ih =>
    intro s s' h
    by_cases hc : s.index_square < n
    · rw [sift_loop_succ fuel k n s hc] at h
      rw [sift_heads_succ fuel k n s hc]
      rcases hb : sift_body fuel n s with e | s1
      · rw [hb] at h; simp at h
      · rw [hb] at h
        simp only at h ⊢
        right
        rcases ih s1 s' h with e | ⟨t, ht, h1, h2⟩
        · subst e
          exact ⟨s, List.mem_cons_self _ _, hc, hb⟩
        · exact ⟨t, List.mem_cons_of_mem _ ht, h1, h2⟩
    · rw [sift_loop_exit fuel _ n s hc] at h
      simp only [Except.ok.injEq] at h
      exact Or.inl h.symm

theorem index_square_mono {i j : Nat} (h : i ≤ j) :
    2 * i ^ 2 + 6 * i + 3 ≤ 2 * j ^ 2 + 6 * j + 3 := by
  have := Nat.pow_le_pow_left h 2
  omega

theorem sift_run_heads_eq (fuel n : Nat) (arr : List Bool) (hn : n ≤ arr.length) :
    sift_run_heads fuel arr n =
      sift_heads fuel fuel n
        { arr := List.replicate n true ++ arr.drop n, i := 0, index_square := 3, factor := 3 } := by
  unfold sift_run_heads
  rw [fill_ok arr n true hn]

theorem sift_run_eq (fuel n : Nat) (arr : List Bool) (hn : n ≤ arr.length) :
    sift_run fuel arr n =
      sift_loop fuel fuel n
        { arr := List.replicate n true ++ arr.drop n, i := 0, index_square := 3, factor := 3 } := by
  unfold sift_run
  rw [fill_ok arr n true hn]

/-- C17: over unbounded integers, every array access of `sift` on an array of
length `n` is in bounds.  The run returns (the model reports any load or store
at a position `≥ n` as `Fault.outOfBounds`); in every state in which the loop
body is entered `i < index_square < n`, so the load `first[i]` succeeds, and
`mark_sieve` called there on the non-empty range from `index_square` to `n`
returns, all its stores being below `n`. -/
theorem sift_in_bounds (fuel n : Nat) (arr : List Bool) (hlen : arr.length = n)
    (hfuel : n ≤ fuel) :
    (∃ res, sift fuel arr n = .ok res ∧ res.length = n) ∧
    ∀ s ∈ sift_run_heads fuel arr n,
      s.arr.length = n ∧
      (s.index_square < n →
        s.i < s.index_square ∧ s.index_square < s.arr.length ∧
        (∃ b, load s.arr s.i = .ok b) ∧
        ∃ arr', mark_sieve fuel s.arr s.index_square n s.factor = .ok arr' ∧
          arr'.length = n) := by
  have hn : n ≤ arr.length := by omega
  constructor
  · refine ⟨_, sift_eq fuel n arr hn hfuel, ?_⟩
    rw [List.length_append, length_prime_flags, List.length_drop]
    omega
  · intro s hs
    rw [sift_run_heads_eq fuel n arr hn] at hs
    have hinv := sift_heads_inv fuel n arr hn hfuel fuel _ (sift_init_inv arr n hn) s hs
    have hl : s.arr.length = n := by rw [hinv.2.2.1, hlen]
    refine ⟨hl, fun hlt => ?_⟩
    obtain ⟨h1, h2, ⟨arr', h3, h4⟩, _⟩ := sift_body_inv fuel n arr s hn hfuel hinv hlt
    exact ⟨h1, by omega, ⟨_, h2⟩, arr', h3, by omega⟩

/-- C17 on ten slots, in the first head state: `i = 0 < index_square = 3 < 10`. -/
theorem sift_in_bounds_witness :
    (0 : Nat) < 3 ∧ 3 < (List.replicate 10 true).length ∧
      (∃ b, load (List.replicate 10 true) 0 = .ok b) ∧
      ∃ arr', mark_sieve 10 (List.replicate 10 true) 3 10 3 = .ok arr' ∧ arr'.length = 10 :=
  ((sift_in_bounds 10 10 (List.replicate 10 false) (by decide) (by decide)).2
    { arr := List.replicate 10 true, i := 0, index_square := 3, factor := 3 }
    (by decide)).2 (by decide)

/-- C18: the largest value `index_square` takes during `sift(array, n)` is its
value at the exit of the loop, the first term of `2i^2+6i+3` that is `≥ n`.
For `n` a 32-bit `int` it is at most `2^31 - 1` if and only if
`n ≤ 2147418111`; for `2147418111 < n ≤ 2^31 - 1` the loop body is entered
with `i = 32766`, `index_square = 2147418111`, and its update produces
`2147549183 > 2^31 - 1`, which a 32-bit `index_square` cannot hold. -/
theorem index_square_overflow (fuel n : Nat) (arr : List Bool) (hn : n ≤ arr.length)
    (hfuel : n ≤ fuel) :
    ∃ s', sift_run fuel arr n = .ok s' ∧
      s'.index_square = 2 * s'.i ^ 2 + 6 * s'.i + 3 ∧ n ≤ s'.index_square ∧
      (s'.i = 0 ∨ 2 * (s'.i - 1) ^ 2 + 6 * (s'.i - 1) + 3 < n) ∧
      (∀ t ∈ sift_run_heads fuel arr n, t.index_square ≤ s'.index_square) ∧
      (n ≤ 2147483647 → (s'.index_square ≤ 2147483647 ↔ n ≤ 2147418111)) ∧
      (2147418111 < n → n ≤ 2147483647 →
        s'.i = 32767 ∧ s'.index_square = 2147549183 ∧
        ∃ t ∈ sift_run_heads fuel arr n, t.i = 32766 ∧ t.index_square = 2147418111 ∧
          t.index_square + (t.factor + s'.factor) = 2147549183) := by
  obtain ⟨s', e, hinv, hexit⟩ := sift_run_spec fuel n arr hn hfuel
  have e2 := e
  rw [sift_run_eq fuel n arr hn] at e2
  have hform := hinv.2.1
  have hmin := sift_loop_exit_min fuel n fuel _ s' e2 rfl rfl (Or.inl rfl)
  have hlast := sift_heads_last fuel n fuel _ s' e2
  have v1 : 2 * 32766 ^ 2 + 6 * 32766 + 3 = 2147418111 := by norm_num
  have v2 : 2 * 32767 ^ 2 + 6 * 32767 + 3 = 2147549183 := by norm_num
  have hle : n ≤ 2147418111 → s'.i ≤ 32766 := by
    intro h
    rcases hmin with h0 | h0
    · omega
    · by_contra hc
      have := index_square_mono (show 32766 ≤ s'.i - 1 by omega)
      omega
  have hgt : 2147418111 < n → 32767 ≤ s'.i := by
    intro h
    by_contra hc
    have := index_square_mono (show s'.i ≤ 32766 by omega)
    omega
  refine ⟨s', e, hform, hexit, hmin, ?_, ?_, ?_⟩
  · intro t ht
    rw [sift_run_heads_eq fuel n arr hn] at ht
    rcases hlast.2.2 t ht with h | h
    · rw [h]
    · omega
  · intro hn32
    constructor
    · intro h
      by_contra hc
      have := index_square_mono (hgt (by omega))
      omega
    · intro h
      have := index_square_mono (hle h)
      omega
  · intro h1 h2
    have hi : s'.i = 32767 := by
      have h3 := hgt h1
      rcases hmin with h0 | h0
      · omega
      · by_contra hc
        have := index_square_mono (show 32767 ≤ s'.i - 1 by omega)
        omega
    have hidx : s'.index_square = 2147549183 := by rw [hform, hi, v2]
    refine ⟨hi, hidx, ?_⟩
    rcases sift_loop_pred fuel n fuel _ s' e2 with h0 | ⟨t, ht, hlt, hb⟩
    · rw [h0] at hi
      simp at hi
    · obtain ⟨f1, f2, f3⟩ := sift_body_fields fuel n t s' hb
      have hti : t.i = 32766 := by omega
      have htf := (sift_heads_formula fuel n fuel _ rfl rfl t ht).2
      refine ⟨t, ?_, hti, ?_, ?_⟩
      · rw [sift_run_heads_eq fuel n arr hn]; exact ht
      · rw [htf, hti, v1]
      · rw [← f3, hidx]

/-- C18 at the commented-out size `2147483647`: the loop exits with `i = 32767`
and `index_square = 2147549183`, above `2^31 - 1`. -/
theorem index_square_overflow_witness :
    ∃ s', sift_run 2147483647 (List.replicate 2147483647 false) 2147483647 = .ok s' ∧
      s'.i = 32767 ∧ s'.index_square = 2147549183 ∧ ¬ s'.index_square ≤ 2147483647 := by
  obtain ⟨s', e, _, _, _, _, h5, h6⟩ := index_square_overflow 2147483647 2147483647
    (List.replicate 2147483647 false) (by rw [List.length_replicate]) (le_refl _)
  obtain ⟨h7, h8, _⟩ := h6 (by norm_num) (le_refl _)
  exact ⟨s', e, h7, h8, by rw [h8]; norm_num⟩

end Sieve
